import Mathlib

/-!
Verification of the greg-calc equilibrium-solving core.

This file gives a shallow embedding, in Lean 4, of the core data model and
algorithms of the greg-calc processing-chain calculator:

* `src/model/machine.rs` — voltage tiers, clocked machines, machine populations
  and their speed/power arithmetic;
* `src/model/recipe.rs` — recipes and their per-second stoichiometric flows;
* `src/model/processing_chain.rs` — processing chains, the balance matrix, the
  `Speeds` / `WeightedSpeeds` equilibrium derivation, and the mutator/cache
  discipline;
* `src/nullspace.rs` — the exact-rational Gauss-Jordan nullspace solver.

Conventions of the embedding:

* `malachite::Rational` becomes `ℚ`; `malachite::Integer` becomes `ℤ`;
  machine counts and weights (`u64`) become `ℕ`; `eu_per_tick : i64` becomes `ℤ`.
* Rust functions that can panic (out-of-range `Enum::from_usize`, the
  defensive assertion in `ClockedMachines::eu_per_tick`, `chunks_exact(0)` on
  an empty setup list, iterator depletion) are embedded as `Option`-valued
  functions where `none` marks the panic.
* `BTreeMap` / `BTreeSet` values are embedded as sorted association lists /
  sorted duplicate-free lists, built by insertion functions that keep the
  ordered-iteration behaviour of the originals.
-/

namespace GregCalc

/-! ## Voltage tiers (`src/model/machine.rs`, `enum Voltage`) -/

/-- The fifteen voltage tiers, in ascending order, from `enum Voltage`. -/
inductive Voltage where
  | UltraLow
  | Low
  | Medium
  | High
  | Extreme
  | Insane
  | Ludicrous
  | Zpm
  | Ultimate
  | UltraHigh
  | UltraExcessive
  | UltraImmense
  | UltraExtreme
  | Overpowered
  | Maximum
  deriving DecidableEq, Repr, Fintype

namespace Voltage

/-- The discriminant of a tier, as produced by `Voltage as i8` / `Enum::into_usize`. -/
def toNat : Voltage → ℕ
  | .UltraLow => 0
  | .Low => 1
  | .Medium => 2
  | .High => 3
  | .Extreme => 4
  | .Insane => 5
  | .Ludicrous => 6
  | .Zpm => 7
  | .Ultimate => 8
  | .UltraHigh => 9
  | .UltraExcessive => 10
  | .UltraImmense => 11
  | .UltraExtreme => 12
  | .Overpowered => 13
  | .Maximum => 14

/-- `enum_map::Enum::from_usize` for `Voltage`: the tier with the given index.
The Rust implementation panics when the index is out of range, which the
embedding marks as `none`. -/
def fromUsize : ℕ → Option Voltage
  | 0 => some .UltraLow
  | 1 => some .Low
  | 2 => some .Medium
  | 3 => some .High
  | 4 => some .Extreme
  | 5 => some .Insane
  | 6 => some .Ludicrous
  | 7 => some .Zpm
  | 8 => some .Ultimate
  | 9 => some .UltraHigh
  | 10 => some .UltraExcessive
  | 11 => some .UltraImmense
  | 12 => some .UltraExtreme
  | 13 => some .Overpowered
  | 14 => some .Maximum
  | _ => none

/-- `u64::div_ceil` for a divisor of two, as used by `Voltage::from_eu_per_tick`. -/
def divCeil2 (n : ℕ) : ℕ := (n + 1) / 2

/-- `Voltage::from_eu_per_tick`: tier index `(ilog2(eu).saturating_sub(3)).div_ceil(2)`.
`ilog2` on a `NonZeroU64` is the floor base-2 logarithm (`Nat.log2`);
`saturating_sub` on naturals is `Nat` subtraction. `none` marks the panic of
`Enum::from_usize` on an out-of-range index (`eu ≥ 2^32`). -/
def fromEuPerTick (euPerTick : ℕ) : Option Voltage :=
  fromUsize (divCeil2 (Nat.log2 euPerTick - 3))

/-- `Voltage::from_signed_eu_per_tick`: drops the sign of a `NonZeroI64` first. -/
def fromSignedEuPerTick (euPerTick : ℤ) : Option Voltage :=
  fromEuPerTick euPerTick.natAbs

/-- `Voltage::max_eu_per_tick`: `2^(2·tier + 3)`. -/
def maxEuPerTick (v : Voltage) : ℕ := 2 ^ (v.toNat * 2 + 3)

/-- `Voltage::overclocking_steps`: signed difference of tier discriminants. -/
def overclockingSteps (v recipeVoltage : Voltage) : ℤ :=
  (v.toNat : ℤ) - (recipeVoltage.toNat : ℤ)

/-- `Voltage::speed_factor`: `Rational::ONE << overclocking_steps`, i.e. a
(possibly negative) power of two. -/
def speedFactor (v recipeVoltage : Voltage) : ℚ :=
  (2 : ℚ) ^ (overclockingSteps v recipeVoltage)

/-- `Voltage::eu_factor_log2`: twice the overclocking steps. -/
def euFactorLog2 (v recipeVoltage : Voltage) : ℤ :=
  2 * overclockingSteps v recipeVoltage

end Voltage

/-! ## Clocked machines (`src/model/machine.rs`) -/

/-- `ClockedMachine`: a machine of a given tier, underclocked to run at
`underclocking`. The Rust invariant `underclocking ≤ tier` is enforced by the
constructors and the deserializer, not by the type. -/
structure ClockedMachine where
  tier : Voltage
  underclocking : Voltage
  deriving DecidableEq, Repr

namespace ClockedMachine

/-- The hand-written `Ord for ClockedMachine`:
`(self.tier, other.underclocking).cmp(&(other.tier, self.underclocking))` —
lexicographic, tier ascending first, then underclocking descending. -/
def cmp (a b : ClockedMachine) : Ordering :=
  (compare a.tier.toNat b.tier.toNat).then (compare b.underclocking.toNat a.underclocking.toNat)

end ClockedMachine

/-- `malachite::Integer << i8`: a left shift by a signed amount; a negative
amount is an arithmetic (floor) right shift. -/
def shlInt (x : ℤ) (shift : ℤ) : ℤ :=
  if 0 ≤ shift then x * 2 ^ shift.toNat else Int.fdiv x (2 ^ (-shift).toNat)

/-- `MachinePowerError` from `src/model/machine.rs`. -/
inductive MachinePowerError where
  | requiresEco
  | requiresPower
  deriving DecidableEq, Repr

/-- `ClockedMachines::speed_factor`: sum over the machine map of
`underclocking.speed_factor(recipe_voltage) * count`. The map is embedded as
an association list ordered by the `ClockedMachine` ordering. -/
def ClockedMachines.speedFactor (machines : List (ClockedMachine × ℕ)) (recipeVoltage : Voltage) : ℚ :=
  (machines.map (fun m => m.1.underclocking.speedFactor recipeVoltage * (m.2 : ℚ))).sum

/-- `ClockedMachines::eu_per_tick`: per machine population, the recipe power
shifted by `eu_factor_log2`, with the defensive assertion
`eu != 0` (its failure, and the panic of `from_signed_eu_per_tick` on an
unrepresentable tier, are embedded as `none`). -/
def ClockedMachines.euPerTick (machines : List (ClockedMachine × ℕ)) (recipeEuPerTick : ℤ) :
    Option ℤ := do
  let recipeVoltage ← Voltage.fromSignedEuPerTick recipeEuPerTick
  let terms ← machines.mapM (fun m =>
    let eu := shlInt recipeEuPerTick (m.1.underclocking.euFactorLog2 recipeVoltage)
    if eu = 0 then none else some (eu * (m.2 : ℤ)))
  pure terms.sum

/-- `Machines`: either a count of unpowered machines or a map of clocked
machine populations. -/
inductive Machines where
  | eco (count : ℕ)
  | power (clockedMachines : List (ClockedMachine × ℕ))
  deriving DecidableEq, Repr

namespace Machines

/-- `Machines::speed_factor`, matching the Rust `match` on
`(recipe_voltage, self)`. -/
def speedFactor : Machines → Option Voltage → Except MachinePowerError ℚ
  | .eco count, none => .ok (count : ℚ)
  | .power clockedMachines, some recipeVoltage =>
      .ok (ClockedMachines.speedFactor clockedMachines recipeVoltage)
  | .power _, none => .error .requiresEco
  | .eco _, some _ => .error .requiresPower

/-- `Machines::eu_per_tick`, matching the Rust `match` on
`(recipe_eu_per_tick.try_into().ok(), self)`; the `NonZeroI64` conversion
fails exactly for zero. The outer `Option` marks panics inside
`ClockedMachines::eu_per_tick`. -/
def euPerTick : Machines → ℤ → Option (Except MachinePowerError ℤ)
  | .eco _, recipeEuPerTick =>
      if recipeEuPerTick = 0 then some (.ok 0) else some (.error .requiresPower)
  | .power clockedMachines, recipeEuPerTick =>
      if recipeEuPerTick = 0 then some (.error .requiresEco)
      else (ClockedMachines.euPerTick clockedMachines recipeEuPerTick).map .ok

/-- Whether the population is the `Eco` variant. -/
def isEco : Machines → Bool
  | .eco _ => true
  | .power _ => false

end Machines

/-! ## Recipes (`src/model/recipe.rs`) -/

/-- `ProductCount`: a product name together with a positive count
(`NonZeroU64`; positivity is a data invariant, not enforced by the type). -/
structure ProductCount where
  product : String
  count : ℕ
  deriving DecidableEq, Repr

/-- `Recipe` from `src/model/recipe.rs`. `ticks` is a `NonZeroU64`. -/
structure Recipe where
  machine : String
  ticks : ℕ
  eu_per_tick : ℤ
  catalysts : List String
  consumed : List ProductCount
  produced : List ProductCount
  deriving DecidableEq, Repr

/-- Byte-lexicographic order on product names — the `Ord` of Rust `String`
(comparison of codepoints agrees with UTF-8 byte order). Written as an
explicit Boolean so that the kernel can evaluate it. -/
def charListLt : List Char → List Char → Bool
  | _, [] => false
  | [], _ :: _ => true
  | c :: cs, d :: ds =>
      if c.toNat < d.toNat then true
      else if d.toNat < c.toNat then false
      else charListLt cs ds

/-- `a < b` on Rust strings. -/
def strLt (a b : String) : Bool := charListLt a.data b.data

/-- Insertion into a `BTreeMap<Product, Integer>` embedded as an association
list sorted by key: `*map.entry(product).or_default() += count`. -/
def insertAdd (product : String) (count : ℤ) : List (String × ℤ) → List (String × ℤ)
  | [] => [(product, count)]
  | (p, c) :: rest =>
      if product = p then (p, c + count) :: rest
      else if strLt product p then (product, count) :: (p, c) :: rest
      else (p, c) :: insertAdd product count rest

namespace Recipe

/-- `Recipe::voltage`: `None` when the recipe needs no power, otherwise the
tier implied by `|eu_per_tick|`. The outer `Option` marks the panic of
`from_eu_per_tick` on an unrepresentable tier (`|eu_per_tick| ≥ 2^32`). -/
def voltage (r : Recipe) : Option (Option Voltage) :=
  if r.eu_per_tick = 0 then some none
  else (Voltage.fromSignedEuPerTick r.eu_per_tick).map some

/-- `Recipe::seconds`: `ticks / 20` as an exact rational. -/
def seconds (r : Recipe) : ℚ := (r.ticks : ℚ) / 20

/-- `Recipe::product_counts`: net signed counts per product, folded into a
`BTreeMap` — consumed entries negative, produced entries positive. -/
def productCounts (r : Recipe) : List (String × ℤ) :=
  ((r.consumed.map (fun pc => (pc.product, -(pc.count : ℤ)))) ++
      (r.produced.map (fun pc => (pc.product, (pc.count : ℤ))))).foldl
    (fun acc e => insertAdd e.1 e.2 acc) []

/-- `Recipe::products_per_sec`: each net count divided by the cycle duration. -/
def productsPerSec (r : Recipe) : List (String × ℚ) :=
  r.productCounts.map (fun e => (e.1, (e.2 : ℚ) / r.seconds))

/-- `Recipe::produces`: membership of the product in the produced list. -/
def produces (r : Recipe) (product : String) : Bool :=
  r.produced.any (fun pc => pc.product = product)

/-- `Recipe::consumes`: membership of the product in the consumed list. -/
def consumes (r : Recipe) (product : String) : Bool :=
  r.consumed.any (fun pc => pc.product = product)

/-- `Recipe::products`: the consumed product names followed by the produced
ones (with duplicates, as the Rust iterator chain yields them). -/
def products (r : Recipe) : List String :=
  r.consumed.map (fun pc => pc.product) ++ r.produced.map (fun pc => pc.product)

end Recipe

/-! ## Setups (`src/model/processing_chain.rs`) -/

/-- `Weight(pub u64)`; the Rust `Default` is `1`. -/
abbrev Weight := ℕ

/-- `Setup`: a recipe, a machine population and a priority weight. -/
structure Setup where
  recipe : Recipe
  machines : Machines
  weight : Weight
  deriving DecidableEq, Repr

namespace Setup

/-- `Setup::speed_factor`: the machine population's speed factor at the
recipe's implied voltage. `none` marks the panic inside `Recipe::voltage`. -/
def speedFactor (s : Setup) : Option (Except MachinePowerError ℚ) :=
  (s.recipe.voltage).map s.machines.speedFactor

/-- `Setup::products_per_sec_filter_ok` collected into a `BTreeMap`: the
recipe's per-second flows scaled by the speed factor, with every entry dropped
when the speed factor is a `MachinePowerError`. The speed factor sits in a
`LazyCell`, so it is never evaluated (and can never panic) when the recipe
touches no products; otherwise `none` marks its panic. -/
def productsPerSecFilterOk (s : Setup) : Option (List (String × ℚ)) :=
  match s.recipe.productCounts with
  | [] => some []
  | l => (s.speedFactor).map fun
      | .ok speedFactor => l.map (fun e => (e.1, (e.2 : ℚ) / s.recipe.seconds * speedFactor))
      | .error _ => []

/-- The entry of the balance matrix for this setup and product:
`setup_products_per_sec[i].get(product).cloned().unwrap_or_default()`. -/
def matrixEntry (s : Setup) (product : String) : Option ℚ :=
  (s.productsPerSecFilterOk).map (fun table => ((table.lookup product).getD 0))

end Setup

/-! ## The nullspace solver (`src/nullspace.rs`)

The Rust solver works in place on a row-major flat array with a fixed column
count, sweeping pivot columns left to right; all reads and writes at pivot
column `c` touch only the window of columns `c ..`. The embedding keeps the
matrix as a list of full rows and performs the same windowed operations. -/

/-- The entry of a row list at `(i, j)`, with `0` outside the matrix. -/
def ent (rows : List (List ℚ)) (i j : ℕ) : ℚ := (rows.getD i []).getD j 0

/-- Scan a list of rows for the first one whose entry in column `c` is
nonzero, reporting its index offset by `start`. -/
def findFromGo (c : ℕ) : List (List ℚ) → ℕ → Option ℕ
  | [], _ => none
  | r :: rest, i => if r.getD c 0 ≠ 0 then some i else findFromGo c rest (i + 1)

/-- The scan
`(pivot_index..matrix.len()).step_by(columns).find(|i| matrix[i] != 0)`:
the first row index at or below `i` whose entry in column `c` is nonzero. -/
def findFrom (rows : List (List ℚ)) (i c : ℕ) : Option ℕ :=
  findFromGo c (rows.drop i) i

/-- `swap_with_slice` on the windows `c ..` of rows `i` and `j`. -/
def swapWindow (rows : List (List ℚ)) (i j c : ℕ) : List (List ℚ) :=
  (rows.set i ((rows.getD i []).take c ++ (rows.getD j []).drop c)).set j
    ((rows.getD j []).take c ++ (rows.getD i []).drop c)

/-- Map over the rows together with their indices (structurally, so that the
kernel can evaluate it). -/
def mapWithIdx (f : ℕ → List ℚ → List ℚ) : ℕ → List (List ℚ) → List (List ℚ)
  | _, [] => []
  | i, r :: rest => f i r :: mapWithIdx f (i + 1) rest

/-- One elimination pass over all rows for pivot row `k` and pivot column `c`:
the pivot row's entry becomes `ONE` and its window is divided by the old pivot
entry; every other row's entry in column `c` becomes `ZERO` and its window has
the matching multiple of the pivot row subtracted. (The Rust loop normalizes
the pivot row when it reaches it, so rows above divide by the un-normalized
pivot entry while rows below subtract against the normalized row; both compute
`a - r_c / f * p_j`, the form used here.) -/
def elimStepAt (rows : List (List ℚ)) (k c : ℕ) : List (List ℚ) :=
  let p := rows.getD k []
  let f := p.getD c 0
  mapWithIdx
    (fun i r =>
      if i = k then r.take c ++ 1 :: (r.drop (c + 1)).map (· / f)
      else
        r.take c ++ 0 ::
          ((r.drop (c + 1)).zipWith (fun a b => a - r.getD c 0 / f * b) (p.drop (c + 1))))
    0 rows

/-- Reading off a basis vector's entries over the already processed columns:
`0` for a free (unknown) column, the negated next parameter for a pivot
column — mirroring the `unknowns.iter().map(..)` / `parameters.next()` pair. -/
def negParams : List Bool → List ℚ → List ℚ
  | [], _ => []
  | true :: unknowns, params => 0 :: negParams unknowns params
  | false :: unknowns, params => -(params.headD 0) :: negParams unknowns (params.tail)

/-- The pivot-column sweep of `nullspace`, one call per pivot column `c`;
`width` is the number of columns still to process, `pivots` the number of
pivot rows found so far (they occupy the first `pivots` row positions). -/
def nullspaceGo (columns : ℕ) :
    ℕ → ℕ → List (List ℚ) → ℕ → List Bool → List (List ℚ) → List Bool × List (List ℚ)
  | 0, _, _, _, unknowns, nullspace => (unknowns, nullspace)
  | width + 1, c, rows, pivots, unknowns, nullspace =>
    match findFrom rows pivots c with
    | none =>
        let params := rows.map (fun r => r.getD c 0)
        let v := negParams unknowns params ++ 1 :: List.replicate (columns - c - 1) 0
        nullspaceGo columns width (c + 1) rows pivots (unknowns ++ [true]) (nullspace ++ [v])
    | some firstNonZero =>
        let rows1 := if firstNonZero ≠ pivots then swapWindow rows pivots firstNonZero c else rows
        let rows2 := elimStepAt rows1 pivots c
        nullspaceGo columns width (c + 1) rows2 (pivots + 1) (unknowns ++ [false]) nullspace

/-- `nullspace(matrix, columns)`: the free-column markers (`unknowns`) and the
nullspace basis vectors, each of length `columns`. The Rust function returns
the basis as one flat vector; the embedding keeps the `columns`-sized chunks
(exactly the chunks `WeightedSpeeds::new` takes) as separate lists. -/
def nullspace (matrix : List (List ℚ)) (columns : ℕ) : List Bool × List (List ℚ) :=
  nullspaceGo columns columns 0 matrix 0 [] []

/-- The input rows read as a `Mathlib` matrix (entries outside a row are `0`,
matching the flat-array layout where every row has exactly `columns`
entries). -/
def matrixOf (m : List (List ℚ)) (n : ℕ) : Matrix (Fin m.length) (Fin n) ℚ :=
  Matrix.of fun i j => ent m i j

/-! ## Processing chains, `Speeds` and `WeightedSpeeds`
(`src/model/processing_chain.rs`) -/

/-- Insertion into a `BTreeSet<Product>` embedded as a sorted duplicate-free
list of names. -/
def insertSortedUnique (x : String) : List String → List String
  | [] => [x]
  | y :: ys =>
      if x = y then y :: ys
      else if strLt x y then x :: y :: ys
      else y :: insertSortedUnique x ys

/-- The cached `Speeds` value: the free-setup bit-vector and the nullspace
basis (the Rust flat vector, kept chunked into `columns`-sized vectors). -/
structure Speeds where
  weightedSetups : List Bool
  speeds : List (List ℚ)
  deriving DecidableEq, Repr

/-- The two memo cells of `struct Cache`; `none` is an empty `OnceCell`. -/
structure Cache where
  speeds : Option Speeds
  weightedSpeeds : Option (List ℚ)
  deriving DecidableEq, Repr

/-- `Cache::default()`: both cells empty. -/
def Cache.default : Cache := ⟨none, none⟩

/-- `ProcessingChain`: the setups, the explicit-I/O set (sorted, duplicate
free) and the cache. -/
structure ProcessingChain where
  setups : List Setup
  explicit_io : List String
  cache : Cache
  deriving DecidableEq, Repr

namespace ProcessingChain

/-- `ProcessingChain::products`: every product any setup's recipe touches,
collected into a `BTreeSet` (sorted, duplicate-free — the row order of the
balance matrix). -/
def products (pc : ProcessingChain) : List String :=
  (pc.setups.flatMap (fun s => s.recipe.products)).foldl
    (fun acc p => insertSortedUnique p acc) []

/-- Whether a product is forced to net zero: not explicit I/O, consumed by
some setup and produced by some setup — the row filter of `Speeds::new`. -/
def isImplicit (pc : ProcessingChain) (product : String) : Bool :=
  !pc.explicit_io.contains product &&
    pc.setups.any (fun s => s.recipe.consumes product) &&
    pc.setups.any (fun s => s.recipe.produces product)

/-- The products that generate balance rows, in matrix row order. -/
def implicitProducts (pc : ProcessingChain) : List String :=
  pc.products.filter pc.isImplicit

/-- The balance matrix of `Speeds::new`: first every setup's
`products_per_sec_filter_ok` table is collected (eagerly, so a panicking
setup fails the whole computation: `none`), then one row per implicit
product, one column per setup. -/
def matrix (pc : ProcessingChain) : Option (List (List ℚ)) := do
  let tables ← pc.setups.mapM Setup.productsPerSecFilterOk
  pure (pc.implicitProducts.map (fun product =>
    tables.map (fun table => (table.lookup product).getD 0)))

/-- `Speeds::new`: run the nullspace solver on the balance matrix with one
column per setup. -/
def speedsCalc (pc : ProcessingChain) : Option Speeds :=
  (pc.matrix).map (fun m =>
    let r := nullspace m pc.setups.length
    ⟨r.1, r.2⟩)

end ProcessingChain

namespace WeightedSpeeds

/-- The free setups in order: `weighted_setups.iter_ones().map(|i| &setups[i])`
(the bit-vector has one bit per setup, so this is the filter of the zip). -/
def freeSetups (weightedSetups : List Bool) (setups : List Setup) : List Setup :=
  ((weightedSetups.zip setups).filter (fun e => e.1)).map (fun e => e.2)

/-- The accumulator fold of `WeightedSpeeds::new`: starting from all ones,
multiply element-wise by each basis vector scaled by its free setup's weight. -/
def foldBasis (pairs : List (List ℚ × Setup)) (init : List ℚ) : List ℚ :=
  pairs.foldl
    (fun acc e => acc.zipWith (fun accSpeed speed => accSpeed * (speed * (e.2.weight : ℚ))) e.1)
    init

/-- `WeightedSpeeds::new`: fold the basis vectors against the free setups'
weights, then normalize by the maximum entry when it is nonzero.
`chunks_exact` panics on a chunk size of zero, so an empty setup list is
`none`. -/
def new (speeds : Speeds) (setups : List Setup) : Option (List ℚ) :=
  if setups.length = 0 then none
  else
    let folded := foldBasis (speeds.speeds.zip (freeSetups speeds.weightedSetups setups))
      (List.replicate setups.length 1)
    some (match folded.max? with
      | some maxSpeed => if maxSpeed ≠ 0 then folded.map (· / maxSpeed) else folded
      | none => folded)

end WeightedSpeeds

/-- `ProcessingChain::weighted_speeds` (the computation behind the cache):
`WeightedSpeeds::new(self.speeds(), &self.setups)`. -/
def ProcessingChain.weightedSpeedsCalc (pc : ProcessingChain) : Option (List ℚ) := do
  let speeds ← pc.speedsCalc
  WeightedSpeeds.new speeds pc.setups

/-! ## Flow aggregation (`products_with_speed_callback`) -/

/-- The `Products` accumulator: total power draw and per-product net flow
(a `BTreeMap`, embedded as a sorted association list). -/
structure Products where
  eu_per_tick : ℚ
  products_per_sec : List (String × ℚ)
  deriving DecidableEq, Repr

/-- `*acc.products_per_sec.entry(product).or_default() += count` on the
embedded `BTreeMap`, with rational increments. -/
def insertAddQ (product : String) (count : ℚ) : List (String × ℚ) → List (String × ℚ)
  | [] => [(product, count)]
  | (p, c) :: rest =>
      if product = p then (p, c + count) :: rest
      else if strLt product p then (product, count) :: (p, c) :: rest
      else (p, c) :: insertAddQ product count rest

/-- One step of the `products_with_speed_callback` fold: add the setup's
speed-scaled `Ok` flows into the product map and, when the setup's power is
not a `MachinePowerError`, its speed-scaled power draw into the total.
`none` marks a panic inside the setup's tier computation. -/
def aggStep (acc : Products) (s : Setup) (speed : ℚ) : Option Products := do
  let table ← s.productsPerSecFilterOk
  let acc1 : Products :=
    { acc with
        products_per_sec :=
          table.foldl (fun m e => insertAddQ e.1 (e.2 * speed) m) acc.products_per_sec }
  match ← s.machines.euPerTick s.recipe.eu_per_tick with
  | .ok euPerTick => pure { acc1 with eu_per_tick := acc1.eu_per_tick + (euPerTick : ℚ) * speed }
  | .error _ => pure acc1

/-- `ProcessingChain::products_with_speeds`: fold `aggStep` over the setups,
reading each setup's speed from the weighted-speeds vector. -/
def ProcessingChain.productsWithSpeeds (pc : ProcessingChain) (weightedSpeeds : List ℚ) :
    Option Products :=
  (pc.setups.zip (List.range pc.setups.length)).foldlM
    (fun acc e => aggStep acc e.1 (weightedSpeeds.getD e.2 0)) ⟨0, []⟩

/-! ## Mutators and cache discipline (`impl ProcessingChain`)

Each Rust mutator returns a `&mut` handle; the embedding takes the caller's
edit as a function and applies it, so "clear the cache, then hand out the
handle" becomes "clear the cache and apply the edit". -/

namespace ProcessingChain

/-- `ProcessingChain::setups_mut`: resets the whole cache to `Cache::default()`
before exposing the setups. -/
def setupsMut (pc : ProcessingChain) (edit : List Setup → List Setup) : ProcessingChain :=
  { setups := edit pc.setups, explicit_io := pc.explicit_io, cache := Cache.default }

/-- `ProcessingChain::explicit_io_mut`: resets the whole cache before exposing
the explicit-I/O set. -/
def explicitIoMut (pc : ProcessingChain) (edit : List String → List String) : ProcessingChain :=
  { setups := pc.setups, explicit_io := edit pc.explicit_io, cache := Cache.default }

/-- `ProcessingChain::set_weight`: takes only the `weighted_speeds` cell
(`OnceCell::take` empties it) and updates the indexed setup's weight. -/
def setWeight (pc : ProcessingChain) (index : ℕ) (weight : Weight) : ProcessingChain :=
  { setups := pc.setups.modify (fun s => { s with weight := weight }) index,
    explicit_io := pc.explicit_io,
    cache := { speeds := pc.cache.speeds, weightedSpeeds := none } }

/-- `ProcessingChain::machine_mut`: exposes `setups[index].recipe.machine`
without touching the cache. -/
def machineMut (pc : ProcessingChain) (index : ℕ) (edit : String → String) : ProcessingChain :=
  { setups :=
      pc.setups.modify
        (fun s => { s with recipe := { s.recipe with machine := edit s.recipe.machine } }) index,
    explicit_io := pc.explicit_io,
    cache := pc.cache }

/-- `ProcessingChain::catalysts_mut`: exposes `setups[index].recipe.catalysts`
without touching the cache. -/
def catalystsMut (pc : ProcessingChain) (index : ℕ) (edit : List String → List String) :
    ProcessingChain :=
  { setups :=
      pc.setups.modify
        (fun s => { s with recipe := { s.recipe with catalysts := edit s.recipe.catalysts } })
        index,
    explicit_io := pc.explicit_io,
    cache := pc.cache }

end ProcessingChain

/-! ## Concrete chains used by the claims -/

/-- One unpowered machine. -/
def eco1 : Machines := .eco 1

/-- A power-free one-second recipe with the given consumed/produced lists. -/
def mkRecipe (consumed produced : List ProductCount) : Recipe :=
  { machine := "m", ticks := 20, eu_per_tick := 0, catalysts := [],
    consumed := consumed, produced := produced }

/-- Scenario A: setup `A` produces 2 `X` per second, setup `B` consumes 3 `X`
per second, `X` not in the explicit-I/O set, default weights. -/
def scenarioA : ProcessingChain :=
  ⟨[⟨mkRecipe [] [⟨"X", 2⟩], eco1, 1⟩, ⟨mkRecipe [⟨"X", 3⟩] [], eco1, 1⟩], [], Cache.default⟩

/-- Two setups with disjoint products (no implicit good), default weights. -/
def pcDisjoint : ProcessingChain :=
  ⟨[⟨mkRecipe [] [⟨"X", 1⟩], eco1, 1⟩, ⟨mkRecipe [] [⟨"Y", 1⟩], eco1, 1⟩], [], Cache.default⟩

/-- `P` produces 5 `X`/s; `A` consumes 2 `X`/s at weight 1; `B` consumes
3 `X`/s at weight 0 — the zero-weight sharing example of the `Setup::weight`
documentation. -/
def pcZeroWeight : ProcessingChain :=
  ⟨[⟨mkRecipe [] [⟨"X", 5⟩], eco1, 1⟩,
    ⟨mkRecipe [⟨"X", 2⟩] [], eco1, 1⟩,
    ⟨mkRecipe [⟨"X", 3⟩] [], eco1, 0⟩], [], Cache.default⟩

/-- The same chain without the zero-weight setup `B`. -/
def pcZeroWeightRemoved : ProcessingChain :=
  ⟨[⟨mkRecipe [] [⟨"X", 5⟩], eco1, 1⟩,
    ⟨mkRecipe [⟨"X", 2⟩] [], eco1, 1⟩], [], Cache.default⟩

/-- Three setups whose net `X` flows are `+1`, `+1` and `-1` per second
(balance row `[1, 1, -1]`), default weights. -/
def pcNegativeBasis : ProcessingChain :=
  ⟨[⟨mkRecipe [] [⟨"X", 1⟩], eco1, 1⟩,
    ⟨mkRecipe [⟨"X", 1⟩] [⟨"X", 2⟩], eco1, 1⟩,
    ⟨mkRecipe [⟨"X", 2⟩] [⟨"X", 1⟩], eco1, 1⟩], [], Cache.default⟩

/-- A chain with one setup and both caches filled. -/
def pcCached : ProcessingChain :=
  ⟨[⟨mkRecipe [] [⟨"X", 1⟩], eco1, 1⟩], [], ⟨some ⟨[true], [[1]]⟩, some [1]⟩⟩

/-! ## C2 — end-to-end scenario A -/

unseal Rat.mul Rat.inv Rat.add Rat.sub in
/-- C2. For the two-setup chain where `A` produces good `X` at 2 units per
second and `B` consumes it at 3 units per second, with `X` implicit, the
weighted speeds are exactly `[1, 2/3]`; they satisfy the balance equation
`2·speed(A) = 3·speed(B)` and their maximum entry is `1`. -/
theorem c2_end_to_end_scenario_a :
    scenarioA.weightedSpeedsCalc = some [1, 2 / 3] ∧
    2 * (1 : ℚ) = 3 * (2 / 3) ∧
    ([1, 2 / 3] : List ℚ).max? = some 1 := by
  refine ⟨by decide, by norm_num, by decide⟩

/-! ## C4 — a zero-weight setup (code evaluated at the failing input) -/

unseal Rat.mul Rat.inv Rat.add Rat.sub in
/-- C4. Evaluation of the code at the `Setup::weight` documentation's own
zero-weight example: with producer `P` (5 `X`/s), consumer `A` (2 `X`/s,
weight 1) and consumer `B` (3 `X`/s, weight 0), the weighted speeds collapse
to all-zero, while the same chain without `B` runs `A` at speed 1 — so `A` is
not unaffected (0 ≠ 1), contradicting the claim (and the in-code
documentation that `A` then gets 100% of the product). -/
theorem c4_zero_weight_eval :
    pcZeroWeight.weightedSpeedsCalc = some [0, 0, 0] ∧
    pcZeroWeightRemoved.weightedSpeedsCalc = some [2 / 5, 1] ∧
    (0 : ℚ) ≠ 1 := by
  refine ⟨by decide, by decide, by norm_num⟩

/-! ## C5 — maximum entry of a nonzero result -/

unseal Rat.mul Rat.inv Rat.add Rat.sub in
/-- C5. Evaluation of the code at the failing input: for the chain whose
single balance row is `[1, 1, -1]`, the weighted speeds are `[-1, 0, 0]` — a
result that is not identically zero, yet whose maximum entry is `0`, not `1`
(normalization is skipped because the maximum is zero). -/
theorem c5_max_entry_eval :
    pcNegativeBasis.weightedSpeedsCalc = some [-1, 0, 0] ∧
    ([-1, 0, 0] : List ℚ) ≠ List.replicate 3 0 ∧
    ([-1, 0, 0] : List ℚ).max? = some 0 := by
  refine ⟨by decide, by decide, by decide⟩

/-! ## C8 — cache invalidation discipline -/

/-- C8 counterexample. `machine_mut` returns a mutable handle into the setups
(a structural mutator in the claim's sense) but clears neither cache: on a
chain with both caches filled, the cache after `machine_mut` is unchanged and
in particular not the cleared `Cache::default()`. -/
theorem c8_counterexample :
    (pcCached.machineMut 0 id).cache = pcCached.cache ∧
    (pcCached.machineMut 0 id).cache ≠ Cache.default := by
  refine ⟨rfl, by decide⟩

/-- C8 (amended). The cache discipline actually implemented: `set_weight`
clears only the `WeightedSpeeds` cell and keeps `Speeds`; `setups_mut` and
`explicit_io_mut` clear both cells before the edit is applied; `machine_mut`
and `catalysts_mut` hand out mutable handles into the setups without clearing
either cell. -/
theorem c8_cache_discipline (pc : ProcessingChain) (index : ℕ) (weight : Weight)
    (editSetups : List Setup → List Setup) (editIo : List String → List String)
    (editMachine : String → String) (editCatalysts : List String → List String) :
    (pc.setWeight index weight).cache = ⟨pc.cache.speeds, none⟩ ∧
    (pc.setupsMut editSetups).cache = Cache.default ∧
    (pc.explicitIoMut editIo).cache = Cache.default ∧
    (pc.machineMut index editMachine).cache = pc.cache ∧
    (pc.catalystsMut index editCatalysts).cache = pc.cache :=
  ⟨rfl, rfl, rfl, rfl, rfl⟩

/-! ## C10 — the hand-written `Ord for ClockedMachine` -/

theorem Voltage.toNat_inj_aux : ∀ a b : Voltage, a.toNat = b.toNat → a = b := by decide

/-- The tier discriminant is injective. -/
theorem Voltage.toNat_inj {a b : Voltage} : a.toNat = b.toNat ↔ a = b :=
  ⟨Voltage.toNat_inj_aux a b, fun h => h ▸ rfl⟩

/-- `Ordering.then` yields `lt` exactly when the first comparison is `lt`, or
ties and the second is `lt`. -/
theorem Ordering.then_eq_lt_iff {a b : Ordering} :
    a.then b = .lt ↔ a = .lt ∨ a = .eq ∧ b = .lt := by
  cases a <;> simp [Ordering.then]

theorem Ordering.then_eq_gt_iff {a b : Ordering} :
    a.then b = .gt ↔ a = .gt ∨ a = .eq ∧ b = .gt := by
  cases a <;> simp [Ordering.then]

theorem Ordering.then_eq_eq_iff {a b : Ordering} :
    a.then b = .eq ↔ a = .eq ∧ b = .eq := by
  cases a <;> simp [Ordering.then]

/-- `cmp` sorts by tier ascending, then by underclocking descending. -/
theorem ClockedMachine.cmp_eq_lt_iff {a b : ClockedMachine} :
    ClockedMachine.cmp a b = .lt ↔
      a.tier.toNat < b.tier.toNat ∨
        a.tier = b.tier ∧ b.underclocking.toNat < a.underclocking.toNat := by
  unfold ClockedMachine.cmp
  rw [Ordering.then_eq_lt_iff, Nat.compare_eq_lt, Nat.compare_eq_eq, Nat.compare_eq_lt,
    Voltage.toNat_inj]

theorem ClockedMachine.cmp_eq_gt_iff {a b : ClockedMachine} :
    ClockedMachine.cmp a b = .gt ↔
      b.tier.toNat < a.tier.toNat ∨
        a.tier = b.tier ∧ a.underclocking.toNat < b.underclocking.toNat := by
  unfold ClockedMachine.cmp
  rw [Ordering.then_eq_gt_iff, Nat.compare_eq_gt, Nat.compare_eq_eq, Nat.compare_eq_gt,
    Voltage.toNat_inj]

theorem ClockedMachine.cmp_eq_eq_iff {a b : ClockedMachine} :
    ClockedMachine.cmp a b = .eq ↔ a = b := by
  unfold ClockedMachine.cmp
  rw [Ordering.then_eq_eq_iff, Nat.compare_eq_eq, Nat.compare_eq_eq, Voltage.toNat_inj,
    Voltage.toNat_inj]
  constructor
  · rintro ⟨h1, h2⟩
    cases a
    cases b
    simp_all
  · rintro rfl
    exact ⟨rfl, rfl⟩

/-- C10. The hand-written `Ord for ClockedMachine` is a lawful total order
consistent with `Eq`: `cmp` returns `Equal` exactly when tier and
underclocking both agree, it is antisymmetric and transitive, and it orders
by tier ascending then underclocking descending — so within one tier the
unthrottled machine (`underclocking = tier`) sorts before every underclocked
one, fixing the `BTreeMap` iteration order. -/
theorem c10_clocked_machine_ord (a b c : ClockedMachine) :
    (ClockedMachine.cmp a b = .eq ↔ a = b) ∧
    (ClockedMachine.cmp a b = .lt ↔ ClockedMachine.cmp b a = .gt) ∧
    (ClockedMachine.cmp a b = .lt → ClockedMachine.cmp b c = .lt →
      ClockedMachine.cmp a c = .lt) ∧
    (ClockedMachine.cmp a b = .lt ↔
      a.tier.toNat < b.tier.toNat ∨
        a.tier = b.tier ∧ b.underclocking.toNat < a.underclocking.toNat) ∧
    (∀ t u : Voltage, u.toNat < t.toNat →
      ClockedMachine.cmp ⟨t, t⟩ ⟨t, u⟩ = .lt) := by
  refine ⟨ClockedMachine.cmp_eq_eq_iff, ?_, ?_, ClockedMachine.cmp_eq_lt_iff, ?_⟩
  · rw [ClockedMachine.cmp_eq_lt_iff, ClockedMachine.cmp_eq_gt_iff]
    constructor
    · rintro (h | ⟨h1, h2⟩)
      · exact Or.inl h
      · exact Or.inr ⟨h1.symm, h2⟩
    · rintro (h | ⟨h1, h2⟩)
      · exact Or.inl h
      · exact Or.inr ⟨h1.symm, h2⟩
  · rw [ClockedMachine.cmp_eq_lt_iff, ClockedMachine.cmp_eq_lt_iff,
      ClockedMachine.cmp_eq_lt_iff]
    rintro (h | ⟨h1, h2⟩) (h' | ⟨h1', h2'⟩)
    · exact Or.inl (h.trans h')
    · rw [← h1']
      exact Or.inl h
    · rw [h1]
      exact Or.inl h'
    · rw [← Voltage.toNat_inj] at h1 h1'
      exact Or.inr ⟨Voltage.toNat_inj.mp (h1.trans h1'), h2'.trans h2⟩
  · intro t u hu
    rw [ClockedMachine.cmp_eq_lt_iff]
    exact Or.inr ⟨rfl, hu⟩

/-- C10 witness: transitivity applied at a concrete triple. -/
theorem c10_witness :
    ClockedMachine.cmp ⟨.Low, .UltraLow⟩ ⟨.High, .Low⟩ = .lt :=
  (c10_clocked_machine_ord ⟨.Low, .UltraLow⟩ ⟨.Medium, .Medium⟩ ⟨.High, .Low⟩).2.2.1
    (by decide) (by decide)

/-! ## C6 — tier from power draw -/

/-- `from_usize` panics (is `none`) beyond the last tier. -/
theorem Voltage.fromUsize_none {n : ℕ} (h : 15 ≤ n) : Voltage.fromUsize n = none := by
  match n, h with
  | n + 15, _ => rfl

/-- A successful `from_usize` reports the tier with exactly the given index. -/
theorem Voltage.fromUsize_some_toNat {n : ℕ} {v : Voltage}
    (h : Voltage.fromUsize n = some v) : v.toNat = n ∧ n ≤ 14 := by
  match n, h with
  | 0, h | 1, h | 2, h | 3, h | 4, h | 5, h | 6, h | 7, h | 8, h | 9, h | 10, h | 11, h
  | 12, h | 13, h | 14, h =>
    cases h
    exact ⟨rfl, by omega⟩
  | n + 15, h =>
    rw [Voltage.fromUsize_none (by omega)] at h
    cases h

/-- Every index up to the last tier is representable. -/
theorem Voltage.fromUsize_exists {n : ℕ} (h : n ≤ 14) :
    ∃ v, Voltage.fromUsize n = some v ∧ v.toNat = n := by
  interval_cases n <;> exact ⟨_, rfl, rfl⟩

/-- Characterization of concrete `Nat.log2` values. -/
theorem log2_eq_of_bounds {n L : ℕ} (h0 : 2 ^ L ≤ n) (h1 : n < 2 ^ (L + 1)) :
    Nat.log2 n = L := by
  have hn : n ≠ 0 := by
    have := Nat.one_le_two_pow (n := L)
    omega
  have ha := (Nat.le_log2 hn).mpr h0
  have hb := (Nat.log2_lt hn).mpr h1
  omega

/-- A power draw below `2^32` always yields a representable tier. -/
theorem Voltage.fromEuPerTick_exists {p : ℕ} (hp : 0 < p) (h32 : p < 2 ^ 32) :
    ∃ t, Voltage.fromEuPerTick p = some t ∧ t.toNat = Voltage.divCeil2 (Nat.log2 p - 3) := by
  have hL : Nat.log2 p < 32 := (Nat.log2_lt (by omega)).mpr h32
  have hidx : Voltage.divCeil2 (Nat.log2 p - 3) ≤ 14 := by
    unfold Voltage.divCeil2
    omega
  exact Voltage.fromUsize_exists hidx

/-- C6 counterexample. At power draw `9` the code returns tier `UltraLow`
(`ilog2 9 = 3`, so the index is `ceil(0/2) = 0`), whose maximum power draw is
`8 < 9` — so the returned tier does not satisfy `p ≤ t.max_eu_per_tick()`,
contradicting the claimed minimality property. -/
theorem c6_counterexample :
    Voltage.fromEuPerTick 9 = some .UltraLow ∧ Voltage.maxEuPerTick .UltraLow < 9 := by
  constructor
  · unfold Voltage.fromEuPerTick
    rw [log2_eq_of_bounds (L := 3) (by norm_num) (by norm_num)]
    rfl
  · decide

/-- C6 (amended). For every nonzero power draw `p < 2^32`, the computed tier
`t` is the smallest tier with `p < 2 · t.max_eu_per_tick()` (equivalently the
smallest `t` with `ilog2 p ≤ 2t + 3`) — which can be one tier below the
smallest tier with `p ≤ t.max_eu_per_tick()` because `ilog2` floors; and for
`p ≥ 2^32` the computation panics in `Enum::from_usize` instead of clamping
to the top tier. -/
theorem c6_from_eu_per_tick (p : ℕ) (hp : 0 < p) (h32 : p < 2 ^ 32) :
    (∃ t, Voltage.fromEuPerTick p = some t ∧
      p < 2 * t.maxEuPerTick ∧
      ∀ t' : Voltage, p < 2 * t'.maxEuPerTick → t.toNat ≤ t'.toNat) ∧
    ∀ q : ℕ, 2 ^ 32 ≤ q → Voltage.fromEuPerTick q = none := by
  constructor
  · have hple : 2 ^ Nat.log2 p ≤ p := Nat.log2_self_le (by omega)
    have hplt : p < 2 ^ (Nat.log2 p + 1) := Nat.lt_log2_self
    obtain ⟨t, ht, htn⟩ := Voltage.fromEuPerTick_exists hp h32
    refine ⟨t, ht, ?_, ?_⟩
    · have h1 : Nat.log2 p + 1 ≤ t.toNat * 2 + 4 := by
        rw [htn]
        unfold Voltage.divCeil2
        omega
      calc p < 2 ^ (Nat.log2 p + 1) := hplt
        _ ≤ 2 ^ (t.toNat * 2 + 4) := Nat.pow_le_pow_right (by omega) h1
        _ = 2 * t.maxEuPerTick := by
            unfold Voltage.maxEuPerTick
            rw [pow_succ]
            ring
    · intro t' ht'
      have h2 : (2 : ℕ) ^ Nat.log2 p < 2 ^ (t'.toNat * 2 + 4) := by
        calc (2 : ℕ) ^ Nat.log2 p ≤ p := hple
          _ < 2 * t'.maxEuPerTick := ht'
          _ = 2 ^ (t'.toNat * 2 + 4) := by
              unfold Voltage.maxEuPerTick
              rw [pow_succ]
              ring
      have h3 : Nat.log2 p < t'.toNat * 2 + 4 := (Nat.pow_lt_pow_iff_right (by omega)).mp h2
      rw [htn]
      unfold Voltage.divCeil2
      omega
  · intro q hq
    have h1 : (32 : ℕ) ≤ Nat.log2 q := by
      refine (Nat.le_log2 ?_).mpr hq
      have := Nat.one_le_two_pow (n := 32)
      omega
    unfold Voltage.fromEuPerTick
    apply Voltage.fromUsize_none
    unfold Voltage.divCeil2
    omega

/-- C6 witness: the amended claim at power draw `40` (tier `Low`,
`40 < 2·32`), and the panic at `2^32`. -/
theorem c6_witness :
    (∃ t, Voltage.fromEuPerTick 40 = some t ∧
      40 < 2 * t.maxEuPerTick ∧
      ∀ t' : Voltage, 40 < 2 * t'.maxEuPerTick → t.toNat ≤ t'.toNat) ∧
    Voltage.fromEuPerTick (2 ^ 32) = none :=
  ⟨(c6_from_eu_per_tick 40 (by norm_num) (by norm_num)).1,
    (c6_from_eu_per_tick 40 (by norm_num) (by norm_num)).2 (2 ^ 32) le_rfl⟩

/-! ## C9 — the defensive assertion in `ClockedMachines::eu_per_tick` -/

/-- Twice a representable tier's index never exceeds the floor log of the
power draw it came from. -/
theorem Voltage.two_mul_toNat_le_log2 {p : ℕ} {v : Voltage}
    (h : Voltage.fromEuPerTick p = some v) : 2 * v.toNat ≤ Nat.log2 p := by
  obtain ⟨htn, -⟩ := Voltage.fromUsize_some_toNat h
  rw [htn]
  unfold Voltage.divCeil2
  omega

/-- C9. The defensive assertion in `ClockedMachines::eu_per_tick` is
unreachable: for every machine satisfying the `underclocking ≤ tier`
invariant and every nonzero recipe power whose implied tier is representable,
shifting the recipe power by the underclocking's (possibly negative)
`eu_factor_log2` never yields zero. -/
theorem c9_assert_unreachable (cm : ClockedMachine) (eu : ℤ) (v : Voltage)
    (heu : eu ≠ 0) (hv : Voltage.fromSignedEuPerTick eu = some v)
    (hinv : cm.underclocking.toNat ≤ cm.tier.toNat) :
    shlInt eu (cm.underclocking.euFactorLog2 v) ≠ 0 := by
  have hlog : 2 * v.toNat ≤ Nat.log2 eu.natAbs := Voltage.two_mul_toNat_le_log2 hv
  have hsize : 2 ^ (2 * v.toNat) ≤ eu.natAbs := by
    calc (2 : ℕ) ^ (2 * v.toNat) ≤ 2 ^ Nat.log2 eu.natAbs :=
          Nat.pow_le_pow_right (by omega) hlog
      _ ≤ eu.natAbs := Nat.log2_self_le (by omega)
  unfold shlInt
  split
  · intro hcontra
    rcases mul_eq_zero.mp hcontra with h | h
    · exact heu h
    · exact (pow_ne_zero _ (by norm_num)) h
  · rename_i hneg
    set k := (-(cm.underclocking.euFactorLog2 v)).toNat with hk
    have hkv : k ≤ 2 * v.toNat := by
      rw [hk]
      unfold Voltage.euFactorLog2 Voltage.overclockingSteps
      omega
    have hpk : 2 ^ k ≤ eu.natAbs :=
      le_trans (Nat.pow_le_pow_right (by omega) hkv) hsize
    have hkpos : (0 : ℤ) < 2 ^ k := by positivity
    rw [Int.fdiv_eq_ediv _ (by positivity)]
    rcases lt_or_gt_of_ne heu with hlt | hgt
    · have := Int.ediv_neg' hlt hkpos
      omega
    · have h1 : (1 : ℤ) ≤ eu / 2 ^ k := by
        refine (Int.le_ediv_iff_mul_le hkpos).mpr ?_
        have : (2 : ℤ) ^ k ≤ eu.natAbs := by exact_mod_cast hpk
        omega
      omega

/-- C9 witness: an `HV` machine underclocked to `LV` on a 32 eu/t recipe. -/
theorem c9_witness :
    shlInt 32 (ClockedMachine.underclocking ⟨.High, .Low⟩ |>.euFactorLog2 .Low) ≠ 0 := by
  refine c9_assert_unreachable ⟨.High, .Low⟩ 32 .Low (by norm_num) ?_ (by decide)
  unfold Voltage.fromSignedEuPerTick Voltage.fromEuPerTick
  rw [show (32 : ℤ).natAbs = 32 from rfl, log2_eq_of_bounds (L := 5) (by norm_num) (by norm_num)]
  rfl

/-! ## C7 — `PowerMismatch` detection and zero-flow aggregation -/

/-- A setup with an eco machine population and a recipe drawing `2^32` eu/t. -/
def hugeEcoSetup : Setup :=
  ⟨{ machine := "m", ticks := 20, eu_per_tick := 2 ^ 32, catalysts := [],
     consumed := [], produced := [⟨"X", 1⟩] }, .eco 5, 1⟩

/-- C7 counterexample. A setup whose machines are eco but whose recipe has a
nonzero `eu_per_tick` of `2^32` is a power mismatch in the claim's sense, yet
`Setup::speed_factor` does not return a `PowerMismatch` error: the tier
computation inside `Recipe::voltage` panics first (embedded as `none`), so
aggregation over a chain containing this setup aborts instead of treating it
as zero flow. -/
theorem c7_counterexample :
    (hugeEcoSetup.recipe.eu_per_tick ≠ 0 ∧ hugeEcoSetup.machines.isEco = true) ∧
    hugeEcoSetup.speedFactor = none := by
  refine ⟨⟨by decide, rfl⟩, ?_⟩
  have hnone : Voltage.fromSignedEuPerTick ((2 : ℤ) ^ 32) = none := by
    unfold Voltage.fromSignedEuPerTick
    rw [show ((2 : ℤ) ^ 32).natAbs = 2 ^ 32 from rfl]
    unfold Voltage.fromEuPerTick
    apply Voltage.fromUsize_none
    rw [log2_eq_of_bounds (L := 32) le_rfl (by norm_num)]
    decide
  unfold Setup.speedFactor Recipe.voltage
  rw [show hugeEcoSetup.recipe.eu_per_tick = (2 : ℤ) ^ 32 from rfl, if_neg (by norm_num), hnone]
  rfl

/-- A setup whose speed factor and power both report a `MachinePowerError`
contributes nothing anywhere: an empty flow table, zero balance-matrix
entries, and an unchanged aggregation accumulator. -/
theorem mismatch_zero_contrib (s : Setup) (e e' : MachinePowerError)
    (hsf : s.speedFactor = some (.error e))
    (hept : s.machines.euPerTick s.recipe.eu_per_tick = some (.error e')) :
    s.productsPerSecFilterOk = some [] ∧
    (∀ product, s.matrixEntry product = some 0) ∧
    ∀ acc speed, aggStep acc s speed = some acc := by
  have htable : s.productsPerSecFilterOk = some [] := by
    unfold Setup.productsPerSecFilterOk
    cases hpc : s.recipe.productCounts with
    | nil => rfl
    | cons a l =>
      rw [hsf]
      rfl
  refine ⟨htable, ?_, ?_⟩
  · intro product
    unfold Setup.matrixEntry
    rw [htable]
    rfl
  · intro acc speed
    unfold aggStep
    rw [htable, hept]
    rfl

/-- A mismatched setup: five eco machines on a recipe that draws 512 eu/t. -/
def powerEcoSetup : Setup :=
  ⟨{ machine := "m", ticks := 20, eu_per_tick := 512, catalysts := [],
     consumed := [], produced := [⟨"X", 1⟩] }, .eco 5, 1⟩

/-- C7 (amended). For every setup whose recipe power draw is representable
(`|eu_per_tick| < 2^32`, so the tier computation cannot panic):
`Setup::speed_factor` returns a `PowerMismatch` error exactly when the
machine kind disagrees with the recipe's power requirement (zero `eu_per_tick`
with powered machines, or nonzero `eu_per_tick` with eco machines); and a
mismatched setup contributes nothing anywhere — its `filter_ok` flow table is
empty, its balance-matrix entry is `0` for every product, and the
`products_with_speed_callback` fold step leaves the accumulator untouched
(the error is never propagated). -/
theorem c7_power_mismatch (s : Setup) (hrep : s.recipe.eu_per_tick.natAbs < 2 ^ 32) :
    ((∃ e, s.speedFactor = some (Except.error e)) ↔
      s.recipe.eu_per_tick = 0 ∧ s.machines.isEco = false ∨
        s.recipe.eu_per_tick ≠ 0 ∧ s.machines.isEco = true) ∧
    (s.recipe.eu_per_tick = 0 ∧ s.machines.isEco = false ∨
        s.recipe.eu_per_tick ≠ 0 ∧ s.machines.isEco = true →
      s.productsPerSecFilterOk = some [] ∧
      (∀ product, s.matrixEntry product = some 0) ∧
      ∀ acc speed, aggStep acc s speed = some acc) := by
  by_cases heu : s.recipe.eu_per_tick = 0
  · have hvolt : s.recipe.voltage = some none := by
      unfold Recipe.voltage
      rw [if_pos heu]
    cases hm : s.machines with
    | eco count =>
      have hsf : s.speedFactor = some (.ok (count : ℚ)) := by
        unfold Setup.speedFactor
        rw [hvolt, hm]
        rfl
      constructor
      · constructor
        · rintro ⟨e, he⟩
          rw [hsf] at he
          cases he
        · rintro (⟨-, hiso⟩ | ⟨hne, -⟩)
          · simp [Machines.isEco] at hiso
          · exact absurd heu hne
      · rintro (⟨-, hiso⟩ | ⟨hne, -⟩)
        · simp [Machines.isEco] at hiso
        · exact absurd heu hne
    | power cms =>
      have hsf : s.speedFactor = some (.error .requiresEco) := by
        unfold Setup.speedFactor
        rw [hvolt, hm]
        rfl
      have hept : s.machines.euPerTick s.recipe.eu_per_tick = some (.error .requiresEco) := by
        rw [hm]
        simp only [Machines.euPerTick]
        rw [if_pos heu]
      exact ⟨⟨fun _ => Or.inl ⟨heu, rfl⟩, fun _ => ⟨_, hsf⟩⟩,
        fun _ => mismatch_zero_contrib s _ _ hsf hept⟩
  · obtain ⟨v, hv, -⟩ :=
      Voltage.fromEuPerTick_exists (p := s.recipe.eu_per_tick.natAbs) (by omega) hrep
    have hvolt : s.recipe.voltage = some (some v) := by
      unfold Recipe.voltage
      rw [if_neg heu]
      unfold Voltage.fromSignedEuPerTick
      rw [hv]
      rfl
    cases hm : s.machines with
    | power cms =>
      have hsf : s.speedFactor = some (.ok (ClockedMachines.speedFactor cms v)) := by
        unfold Setup.speedFactor
        rw [hvolt, hm]
        rfl
      constructor
      · constructor
        · rintro ⟨e, he⟩
          rw [hsf] at he
          cases he
        · rintro (⟨hz, -⟩ | ⟨-, hiso⟩)
          · exact absurd hz heu
          · simp [Machines.isEco] at hiso
      · rintro (⟨hz, -⟩ | ⟨-, hiso⟩)
        · exact absurd hz heu
        · simp [Machines.isEco] at hiso
    | eco count =>
      have hsf : s.speedFactor = some (.error .requiresPower) := by
        unfold Setup.speedFactor
        rw [hvolt, hm]
        rfl
      have hept : s.machines.euPerTick s.recipe.eu_per_tick = some (.error .requiresPower) := by
        rw [hm]
        simp only [Machines.euPerTick]
        rw [if_neg heu]
      exact ⟨⟨fun _ => Or.inr ⟨heu, rfl⟩, fun _ => ⟨_, hsf⟩⟩,
        fun _ => mismatch_zero_contrib s _ _ hsf hept⟩

/-- C7 witness: the amended claim at an eco setup with a powered recipe. -/
theorem c7_witness :
    ((∃ e, powerEcoSetup.speedFactor = some (Except.error e)) ↔
      powerEcoSetup.recipe.eu_per_tick = 0 ∧ powerEcoSetup.machines.isEco = false ∨
        powerEcoSetup.recipe.eu_per_tick ≠ 0 ∧ powerEcoSetup.machines.isEco = true) ∧
    (powerEcoSetup.recipe.eu_per_tick = 0 ∧ powerEcoSetup.machines.isEco = false ∨
        powerEcoSetup.recipe.eu_per_tick ≠ 0 ∧ powerEcoSetup.machines.isEco = true →
      powerEcoSetup.productsPerSecFilterOk = some [] ∧
      (∀ product, powerEcoSetup.matrixEntry product = some 0) ∧
      ∀ acc speed, aggStep acc powerEcoSetup speed = some acc) :=
  c7_power_mismatch powerEcoSetup (by decide)

/-! ## C3 — chains without implicit goods -/

theorem getD_replicate {α : Type} (a d : α) (n i : ℕ) :
    (List.replicate n a).getD i d = if i < n then a else d := by
  by_cases h : i < n
  · rw [List.getD_eq_getElem _ _ (by simpa using h), List.getElem_replicate, if_pos h]
  · rw [List.getD_eq_default _ _ (by simpa using Nat.le_of_not_lt h), if_neg h]

/-- With no parameters left, `negParams` reads off only zeros. -/
theorem negParams_nil_params : ∀ u : List Bool, negParams u [] = List.replicate u.length 0
  | [] => rfl
  | true :: u => by
      simp [negParams, negParams_nil_params u, List.replicate_succ]
  | false :: u => by
      simp [negParams, negParams_nil_params u, List.replicate_succ]

/-- The `i`-th standard basis vector of length `n`, as produced by the
solver for a matrix with no rows. -/
def eVec (n i : ℕ) : List ℚ := List.replicate i 0 ++ 1 :: List.replicate (n - i - 1) 0

theorem eVec_length {n i : ℕ} (h : i < n) : (eVec n i).length = n := by
  simp [eVec]
  omega

theorem eVec_getD {n i : ℕ} (j : ℕ) :
    (eVec n i).getD j 0 = if j = i then 1 else 0 := by
  unfold eVec
  rcases lt_trichotomy j i with hj | rfl | hj
  · rw [List.getD_append _ _ _ _ (by simpa using hj), getD_replicate]
    simp [hj, Nat.ne_of_lt hj]
  · rw [List.getD_append_right _ _ _ _ (by simp)]
    simp
  · rw [List.getD_append_right _ _ _ _ (by simp [Nat.le_of_lt hj])]
    rw [show j - (List.replicate i (0 : ℚ)).length = (j - i - 1) + 1 by simp; omega]
    rw [List.getD_cons_succ, getD_replicate]
    simp [ne_of_gt hj]

/-- On a matrix with no rows, the solver marks every column free and returns
the standard basis. -/
theorem nullspaceGo_nil (n : ℕ) :
    ∀ (w c : ℕ) (u : List Bool) (B : List (List ℚ)), u.length = c →
      nullspaceGo n w c [] 0 u B =
        (u ++ List.replicate w true, B ++ (List.range w).map (fun t => eVec n (c + t))) := by
  intro w
  induction w with
  | zero =>
    intro c u B hu
    simp [nullspaceGo]
  | succ m ih =>
    intro c u B hu
    have hstep : nullspaceGo n (m + 1) c [] 0 u B =
        nullspaceGo n m (c + 1) [] 0 (u ++ [true])
          (B ++ [negParams u [] ++ 1 :: List.replicate (n - c - 1) 0]) := rfl
    rw [hstep, ih (c + 1) (u ++ [true]) _ (by simp [hu])]
    rw [negParams_nil_params, hu]
    simp only [List.range_succ_eq_map, List.map_cons, List.map_map, List.append_assoc,
      List.singleton_append, List.replicate_succ, Nat.add_zero]
    refine congrArg₂ Prod.mk rfl (congrArg (B ++ ·) (congrArg₂ List.cons rfl ?_))
    refine List.map_congr_left (fun t _ => ?_)
    simp only [Function.comp_apply]
    exact congrArg (eVec n) (by omega)

theorem nullspace_nil (n : ℕ) :
    nullspace [] n = (List.replicate n true, (List.range n).map (eVec n)) := by
  unfold nullspace
  rw [nullspaceGo_nil n n 0 [] [] rfl]
  simp

/-- When every column is free, the free setups are all the setups. -/
theorem freeSetups_all_true : ∀ l : List Setup,
    WeightedSpeeds.freeSetups (List.replicate l.length true) l = l
  | [] => rfl
  | s :: rest => by
      have ih := freeSetups_all_true rest
      unfold WeightedSpeeds.freeSetups at ih ⊢
      simpa [List.replicate_succ] using ih

/-- The accumulator fold keeps the list length. -/
theorem foldBasis_length (pairs : List (List ℚ × Setup)) :
    ∀ init : List ℚ, (∀ p ∈ pairs, p.1.length = init.length) →
      (WeightedSpeeds.foldBasis pairs init).length = init.length := by
  induction pairs with
  | nil =>
    intro init h
    rfl
  | cons p rest ih =>
    intro init h
    have hlen : p.1.length = init.length := h p (List.mem_cons_self p rest)
    have hz : (init.zipWith (fun a q => a * (q * (p.2.weight : ℚ))) p.1).length = init.length := by
      rw [List.length_zipWith, hlen]
      omega
    have := ih (init.zipWith (fun a q => a * (q * (p.2.weight : ℚ))) p.1)
      (fun q hq => by rw [hz]; exact h q (List.mem_cons_of_mem p hq))
    rw [← hz]
    exact this

/-- Entry-wise, the accumulator fold multiplies the initial entry by every
basis vector's entry scaled by its free setup's weight. -/
theorem foldBasis_getD (pairs : List (List ℚ × Setup)) :
    ∀ (init : List ℚ) (j : ℕ), (∀ p ∈ pairs, p.1.length = init.length) →
      (WeightedSpeeds.foldBasis pairs init).getD j 0 =
        init.getD j 0 * (pairs.map (fun p => p.1.getD j 0 * (p.2.weight : ℚ))).prod := by
  induction pairs with
  | nil =>
    intro init j h
    simp [WeightedSpeeds.foldBasis]
  | cons p rest ih =>
    intro init j h
    have hlen : p.1.length = init.length := h p (List.mem_cons_self p rest)
    have hstep : WeightedSpeeds.foldBasis (p :: rest) init =
        WeightedSpeeds.foldBasis rest
          (init.zipWith (fun a q => a * (q * (p.2.weight : ℚ))) p.1) := rfl
    have hz : (init.zipWith (fun a q => a * (q * (p.2.weight : ℚ))) p.1).length = init.length := by
      rw [List.length_zipWith, hlen]
      omega
    rw [hstep, ih _ j (fun q hq => by rw [hz]; exact h q (List.mem_cons_of_mem p hq))]
    have hent : (init.zipWith (fun a q => a * (q * (p.2.weight : ℚ))) p.1).getD j 0 =
        init.getD j 0 * (p.1.getD j 0 * (p.2.weight : ℚ)) := by
      by_cases hj : j < init.length
      · rw [List.getD_eq_getElem _ _ (by omega), List.getD_eq_getElem _ _ hj,
          List.getD_eq_getElem _ _ (by omega), List.getElem_zipWith]
      · rw [List.getD_eq_default _ _ (by omega), List.getD_eq_default _ _ (by omega), zero_mul]
    rw [hent, List.map_cons, List.prod_cons]
    ring

/-- The maximum of a repeated zero list. -/
theorem maxQ_replicate_zero (n : ℕ) (h : 0 < n) :
    (List.replicate n (0 : ℚ)).max? = some 0 := by
  cases n with
  | zero => omega
  | succ m =>
    rw [List.replicate_succ]
    have : ∀ k : ℕ, (List.replicate k (0 : ℚ)).foldl max 0 = 0 := by
      intro k
      induction k with
      | zero => rfl
      | succ j ihj => simpa [List.replicate_succ] using ihj
    simpa [List.max?] using this m

/-- An empty chain: `chunks_exact(0)` in `WeightedSpeeds::new` panics. -/
theorem weightedSpeeds_empty (pc : ProcessingChain) (h : pc.setups = []) :
    pc.weightedSpeedsCalc = none := by
  obtain ⟨setups, io, cache⟩ := pc
  simp only at h
  subst h
  rfl

/-- A chain whose balance matrix has no rows computes its weighted speeds
from the all-free identity basis. -/
theorem weightedSpeeds_no_implicit (pc : ProcessingChain) (tables : List (List (String × ℚ)))
    (hpanic : pc.setups.mapM Setup.productsPerSecFilterOk = some tables)
    (himp : pc.implicitProducts = []) :
    pc.weightedSpeedsCalc =
      WeightedSpeeds.new
        ⟨List.replicate pc.setups.length true,
          (List.range pc.setups.length).map (eVec pc.setups.length)⟩
        pc.setups := by
  have hmat : pc.matrix = some [] := by
    unfold ProcessingChain.matrix
    rw [hpanic, himp]
    rfl
  have hsp : pc.speedsCalc =
      some ⟨List.replicate pc.setups.length true,
        (List.range pc.setups.length).map (eVec pc.setups.length)⟩ := by
    unfold ProcessingChain.speedsCalc
    rw [hmat]
    simp only [Option.map_some']
    rw [nullspace_nil]
  unfold ProcessingChain.weightedSpeedsCalc
  rw [hsp]
  rfl

/-- Folding the identity basis of two or more setups against any weights
yields the all-zero vector: every entry meets some other basis vector's zero
component. -/
theorem foldBasis_identity_ge_two (setups : List Setup) (h2 : 2 ≤ setups.length) :
    WeightedSpeeds.foldBasis
      (((List.range setups.length).map (eVec setups.length)).zip setups)
      (List.replicate setups.length 1) = List.replicate setups.length 0 := by
  set n := setups.length with hn
  set pairs := ((List.range n).map (eVec n)).zip setups with hpairs
  have hplen : pairs.length = n := by
    rw [hpairs, List.length_zip, List.length_map, List.length_range, hn]
    omega
  have hmem : ∀ p ∈ pairs, p.1.length = (List.replicate n (1 : ℚ)).length := by
    intro p hp
    obtain ⟨h1, -⟩ := List.of_mem_zip (by rw [hpairs] at hp; exact hp)
    obtain ⟨i, hi, hpeq⟩ := List.mem_map.mp h1
    rw [← hpeq, eVec_length (List.mem_range.mp hi), List.length_replicate]
  refine List.ext_getElem ?_ ?_
  · rw [foldBasis_length pairs _ hmem, List.length_replicate, List.length_replicate]
  · intro j hj hj'
    rw [← List.getD_eq_getElem _ 0, ← List.getD_eq_getElem _ 0,
      foldBasis_getD pairs _ j hmem, getD_replicate, getD_replicate]
    have hjn : j < n := by
      rwa [foldBasis_length pairs _ hmem, List.length_replicate] at hj
    rw [if_pos hjn, if_pos hjn]
    have hzero : (0 : ℚ) ∈ pairs.map (fun p => p.1.getD j 0 * (p.2.weight : ℚ)) := by
      rw [List.mem_iff_getElem]
      refine ⟨if j = 0 then 1 else 0, by rw [List.length_map, hplen]; split <;> omega, ?_⟩
      simp only [List.getElem_map, hpairs, List.getElem_zip, List.getElem_range]
      rw [eVec_getD, if_neg (by split <;> omega), zero_mul]
    rw [List.prod_eq_zero hzero, mul_zero]

/-- A singleton chain with no implicit goods and nonzero weight runs at
relative speed `1`. -/
theorem wnew_identity_one (s : Setup) (hw : s.weight ≠ 0) :
    WeightedSpeeds.new
      ⟨List.replicate 1 true, (List.range 1).map (eVec 1)⟩ [s] = some [1] := by
  have hwq : ((s.weight : ℚ)) ≠ 0 := by exact_mod_cast hw
  have h1 : WeightedSpeeds.new ⟨List.replicate 1 true, (List.range 1).map (eVec 1)⟩ [s] =
      some (if (1 : ℚ) * (1 * (s.weight : ℚ)) ≠ 0
        then [(1 : ℚ) * (1 * (s.weight : ℚ)) / ((1 : ℚ) * (1 * (s.weight : ℚ)))]
        else [(1 : ℚ) * (1 * (s.weight : ℚ))]) := rfl
  rw [h1, if_pos (by rw [one_mul, one_mul]; exact hwq)]
  rw [one_mul, one_mul, div_self hwq]

/-- The weighted-speeds result of a chain of two or more setups with no
implicit goods is the all-zero vector. -/
theorem wnew_identity_ge_two (setups : List Setup) (h2 : 2 ≤ setups.length) :
    WeightedSpeeds.new
      ⟨List.replicate setups.length true,
        (List.range setups.length).map (eVec setups.length)⟩ setups =
      some (List.replicate setups.length 0) := by
  unfold WeightedSpeeds.new
  rw [if_neg (by omega)]
  simp only
  rw [show WeightedSpeeds.freeSetups (List.replicate setups.length true) setups = setups from
    freeSetups_all_true setups]
  rw [foldBasis_identity_ge_two setups h2]
  rw [maxQ_replicate_zero _ (by omega)]
  simp

unseal Rat.mul Rat.inv Rat.add Rat.sub in
/-- C3 counterexample. A chain of two setups with disjoint goods (hence no
implicit good, as witnessed by its empty implicit-product list) has weighted
speeds `[0, 0]`, not the claimed all-ones vector `[1, 1]`. -/
theorem c3_counterexample :
    pcDisjoint.implicitProducts = [] ∧
    pcDisjoint.weightedSpeedsCalc = some [0, 0] ∧
    (some [(0 : ℚ), 0] ≠ some [(1 : ℚ), 1]) := by
  refine ⟨by decide, by decide, by decide⟩

/-- C3 (amended). For every processing chain whose setups' tier computations
cannot panic and whose implicit-product list is empty: the empty chain
panics in `chunks_exact(0)` (`none`) rather than yielding an all-ones vector;
a singleton chain with nonzero weight yields `[1]`; and a chain of two or
more setups yields the all-zero vector — not the all-ones vector — because
the multiplicative fold in `WeightedSpeeds::new` zeroes every entry against
some other free column's basis vector. -/
theorem c3_no_implicit_goods (pc : ProcessingChain)
    (hpanic : (pc.setups.mapM Setup.productsPerSecFilterOk).isSome = true)
    (himp : pc.implicitProducts = []) :
    (pc.setups = [] → pc.weightedSpeedsCalc = none) ∧
    (∀ s, pc.setups = [s] → s.weight ≠ 0 → pc.weightedSpeedsCalc = some [1]) ∧
    (2 ≤ pc.setups.length →
      pc.weightedSpeedsCalc = some (List.replicate pc.setups.length 0)) := by
  obtain ⟨tables, htables⟩ := Option.isSome_iff_exists.mp hpanic
  refine ⟨weightedSpeeds_empty pc, ?_, ?_⟩
  · intro s hs hw
    rw [weightedSpeeds_no_implicit pc tables htables himp, hs]
    exact wnew_identity_one s hw
  · intro h2
    rw [weightedSpeeds_no_implicit pc tables htables himp]
    exact wnew_identity_ge_two pc.setups h2

/-- C3 witness: the amended claim at the two-setup disjoint chain. -/
theorem c3_witness : pcDisjoint.weightedSpeedsCalc = some (List.replicate 2 0) :=
  (c3_no_implicit_goods pcDisjoint (by decide) (by decide)).2.2 (by decide)

/-! ## C1 — correctness of the nullspace solver

The remainder of the file proves, for an arbitrary rational matrix, that
every basis vector returned by `nullspace` is orthogonal to every row of the
input and that the number of returned vectors is `columns - rank`. The proof
tracks an invariant through the pivot-column sweep: the first `pivots` rows
carry the reduced pivot structure, rows below them are zero on all processed
columns, and the row span never changes. -/

/-- An index at or beyond the row count reads the all-zero row. -/
theorem ent_row_oob {rows : List (List ℚ)} {i : ℕ} (h : rows.length ≤ i) (j : ℕ) :
    ent rows i j = 0 := by
  unfold ent
  rw [List.getD_eq_default _ _ h]
  rfl

/-- An index at or beyond the column count reads zero. -/
theorem ent_col_oob {n : ℕ} {rows : List (List ℚ)} (hr : ∀ r ∈ rows, r.length = n)
    {i j : ℕ} (h : n ≤ j) : ent rows i j = 0 := by
  unfold ent
  by_cases hi : i < rows.length
  · rw [List.getD_eq_getElem _ _ hi]
    exact List.getD_eq_default _ _ (by rw [hr _ (List.getElem_mem hi)]; exact h)
  · rw [show rows.getD i [] = [] from List.getD_eq_default _ _ (by omega)]
    rfl

/-- The row a valid index reads is a member of the list. -/
theorem getD_row_mem {rows : List (List ℚ)} {i : ℕ} (h : i < rows.length) :
    rows.getD i [] ∈ rows := by
  rw [List.getD_eq_getElem _ _ h]
  exact List.getElem_mem h

theorem mapWithIdx_length (f : ℕ → List ℚ → List ℚ) :
    ∀ (i : ℕ) (l : List (List ℚ)), (mapWithIdx f i l).length = l.length
  | _, [] => rfl
  | i, r :: rest => by
      simp [mapWithIdx, mapWithIdx_length f (i + 1) rest]

theorem mapWithIdx_getD (f : ℕ → List ℚ → List ℚ) :
    ∀ (i : ℕ) (l : List (List ℚ)) (t : ℕ), t < l.length →
      (mapWithIdx f i l).getD t [] = f (i + t) (l.getD t []) := by
  intro i l
  induction l generalizing i with
  | nil => intro t ht; simp at ht
  | cons r rest ih =>
    intro t ht
    cases t with
    | zero => simp [mapWithIdx]
    | succ m =>
      have := ih (i + 1) m (by simpa using Nat.lt_of_succ_lt_succ ht)
      simpa [mapWithIdx, Nat.add_assoc, Nat.add_comm 1 m] using this

/-- A failed scan means every entry of column `c` from `start` down is zero. -/
theorem findFrom_none {rows : List (List ℚ)} {start c : ℕ}
    (h : findFrom rows start c = none) : ∀ i, start ≤ i → ent rows i c = 0 := by
  intro i hi
  by_cases hlen : i < rows.length
  · have key : ∀ (l : List (List ℚ)) (s : ℕ), findFromGo c l s = none →
        ∀ t, t < l.length → (l.getD t []).getD c 0 = 0 := by
      intro l
      induction l with
      | nil => intro s hnone t ht; simp at ht
      | cons r rest ih =>
        intro s hnone t ht
        unfold findFromGo at hnone
        split at hnone
        · cases hnone
        · rename_i hzero
          cases t with
          | zero => simpa using not_not.mp (by simpa using hzero)
          | succ m => exact ih (s + 1) hnone m (by simpa using Nat.lt_of_succ_lt_succ ht)
    have hdrop : (rows.drop start).getD (i - start) [] = rows.getD i [] := by
      rw [List.getD_eq_getElem _ _ (by rw [List.length_drop]; omega),
        List.getD_eq_getElem _ _ hlen, List.getElem_drop]
      congr 1
      omega
    have := key (rows.drop start) start h (i - start) (by rw [List.length_drop]; omega)
    unfold ent
    rw [← hdrop]
    exact this
  · exact ent_row_oob (by omega) c

/-- A successful scan reports an in-range row at or below `start` whose
column-`c` entry is nonzero. -/
theorem findFrom_some {rows : List (List ℚ)} {start c i0 : ℕ}
    (h : findFrom rows start c = some i0) :
    start ≤ i0 ∧ i0 < rows.length ∧ ent rows i0 c ≠ 0 := by
  have key : ∀ (l : List (List ℚ)) (s : ℕ), findFromGo c l s = some i0 →
      s ≤ i0 ∧ i0 - s < l.length ∧ (l.getD (i0 - s) []).getD c 0 ≠ 0 := by
    intro l
    induction l with
    | nil => intro s hsome; cases hsome
    | cons r rest ih =>
      intro s hsome
      unfold findFromGo at hsome
      split at hsome
      · rename_i hnz
        cases hsome
        refine ⟨le_rfl, by simp, ?_⟩
        simpa using hnz
      · rename_i hz
        obtain ⟨h1, h2, h3⟩ := ih (s + 1) hsome
        have hne : i0 ≠ s := by
          rintro rfl
          omega
        refine ⟨by omega, by simp; omega, ?_⟩
        rw [show i0 - s = (i0 - (s + 1)) + 1 by omega]
        simpa using h3
  obtain ⟨h1, h2, h3⟩ := key (rows.drop start) start h
  rw [List.length_drop] at h2
  have hdrop : (rows.drop start).getD (i0 - start) [] = rows.getD i0 [] := by
    rw [List.getD_eq_getElem _ _ (by rw [List.length_drop]; omega),
      List.getD_eq_getElem _ _ (by omega), List.getElem_drop]
    congr 1
    omega
  rw [hdrop] at h3
  exact ⟨h1, by omega, h3⟩

/-- The positions of the pivot (`false`) bits of the `unknowns` bit-vector,
in increasing order. -/
def falseIdxs : List Bool → List ℕ
  | [] => []
  | false :: u => 0 :: (falseIdxs u).map (· + 1)
  | true :: u => (falseIdxs u).map (· + 1)

theorem falseIdxs_length : ∀ u : List Bool, (falseIdxs u).length = u.count false
  | [] => rfl
  | false :: u => by simp [falseIdxs, falseIdxs_length u, List.count_cons]
  | true :: u => by simp [falseIdxs, falseIdxs_length u, List.count_cons]

theorem falseIdxs_lt : ∀ u : List Bool, ∀ x ∈ falseIdxs u, x < u.length
  | [] => by simp [falseIdxs]
  | false :: u => by
      intro x hx
      rcases List.mem_cons.mp hx with rfl | hx
      · simp
      · obtain ⟨y, hy, rfl⟩ := List.mem_map.mp hx
        have := falseIdxs_lt u y hy
        simp
        omega
  | true :: u => by
      intro x hx
      obtain ⟨y, hy, rfl⟩ := List.mem_map.mp hx
      have := falseIdxs_lt u y hy
      simp
      omega

theorem falseIdxs_pairwise : ∀ u : List Bool, (falseIdxs u).Pairwise (· < ·)
  | [] => List.Pairwise.nil
  | false :: u => by
      refine List.Pairwise.cons ?_ ((falseIdxs_pairwise u).map _ (fun a b h => by omega))
      intro x hx
      obtain ⟨y, -, rfl⟩ := List.mem_map.mp hx
      omega
  | true :: u => (falseIdxs_pairwise u).map _ (fun a b h => by omega)

theorem falseIdxs_nodup (u : List Bool) : (falseIdxs u).Nodup :=
  (falseIdxs_pairwise u).imp ne_of_lt

theorem falseIdxs_append_true : ∀ u : List Bool, falseIdxs (u ++ [true]) = falseIdxs u
  | [] => rfl
  | false :: u => by simp [falseIdxs, falseIdxs_append_true u]
  | true :: u => by simp [falseIdxs, falseIdxs_append_true u]

theorem falseIdxs_append_false : ∀ u : List Bool,
    falseIdxs (u ++ [false]) = falseIdxs u ++ [u.length]
  | [] => rfl
  | false :: u => by simp [falseIdxs, falseIdxs_append_false u]
  | true :: u => by simp [falseIdxs, falseIdxs_append_false u]

theorem getD_map_add_one {l : List ℕ} {a : ℕ} (h : a < l.length) :
    (l.map (· + 1)).getD a 0 = l.getD a 0 + 1 := by
  rw [List.getD_eq_getElem _ _ (by simpa using h), List.getD_eq_getElem _ _ h,
    List.getElem_map]

theorem negParams_length : ∀ (u : List Bool) (ps : List ℚ), (negParams u ps).length = u.length
  | [], _ => rfl
  | true :: u, ps => by simp [negParams, negParams_length u ps]
  | false :: u, ps => by simp [negParams, negParams_length u ps.tail]

theorem getD_tail {ps : List ℚ} {a : ℕ} {d : ℚ} : ps.tail.getD a d = ps.getD (a + 1) d := by
  cases ps with
  | nil => rfl
  | cons p ps => rfl

/-- At the `a`-th pivot position, `negParams` reads off the negated `a`-th
parameter. -/
theorem negParams_getD_pivot : ∀ (u : List Bool) (ps : List ℚ) (a : ℕ),
    a < (falseIdxs u).length →
      (negParams u ps).getD ((falseIdxs u).getD a 0) 0 = -(ps.getD a 0)
  | [], ps, a => by simp [falseIdxs]
  | true :: u, ps, a => by
      intro ha
      rw [show falseIdxs (true :: u) = (falseIdxs u).map (· + 1) from rfl] at ha ⊢
      rw [List.length_map] at ha
      rw [getD_map_add_one ha]
      rw [show negParams (true :: u) ps = 0 :: negParams u ps from rfl, List.getD_cons_succ]
      exact negParams_getD_pivot u ps a ha
  | false :: u, ps, a => by
      intro ha
      rw [show falseIdxs (false :: u) = 0 :: (falseIdxs u).map (· + 1) from rfl] at ha ⊢
      rw [show negParams (false :: u) ps = -(ps.headD 0) :: negParams u ps.tail from rfl]
      cases a with
      | zero =>
        rw [List.getD_cons_zero, List.getD_cons_zero]
        cases ps <;> rfl
      | succ m =>
        rw [List.length_cons, List.length_map] at ha
        rw [List.getD_cons_succ, getD_map_add_one (by omega), List.getD_cons_succ]
        rw [negParams_getD_pivot u ps.tail m (by omega), getD_tail]

/-- Away from the pivot positions, `negParams` reads off zero. -/
theorem negParams_getD_free : ∀ (u : List Bool) (ps : List ℚ) (j : ℕ),
    j < u.length → j ∉ falseIdxs u → (negParams u ps).getD j 0 = 0
  | [], ps, j => by simp
  | true :: u, ps, j => by
      intro hj hmem
      rw [show negParams (true :: u) ps = 0 :: negParams u ps from rfl]
      cases j with
      | zero => rfl
      | succ m =>
        rw [List.getD_cons_succ]
        refine negParams_getD_free u ps m (by simpa using hj) ?_
        intro hm
        exact hmem (by
          rw [show falseIdxs (true :: u) = (falseIdxs u).map (· + 1) from rfl]
          exact List.mem_map.mpr ⟨m, hm, rfl⟩)
  | false :: u, ps, j => by
      intro hj hmem
      rw [show negParams (false :: u) ps = -(ps.headD 0) :: negParams u ps.tail from rfl]
      cases j with
      | zero =>
        exact absurd (by
          rw [show falseIdxs (false :: u) = 0 :: (falseIdxs u).map (· + 1) from rfl]
          exact List.mem_cons_self 0 _) hmem
      | succ m =>
        rw [List.getD_cons_succ]
        refine negParams_getD_free u ps.tail m (by simpa using hj) ?_
        intro hm
        exact hmem (by
          rw [show falseIdxs (false :: u) = 0 :: (falseIdxs u).map (· + 1) from rfl]
          exact List.mem_cons_of_mem 0 (List.mem_map.mpr ⟨m, hm, rfl⟩))

/-! ### Rows as vectors, row spans, dot products -/

/-- A row read as a vector of `ℚ^n`. -/
def rowFun (n : ℕ) (r : List ℚ) : Fin n → ℚ := fun j => r.getD j 0

/-- The set of row vectors of a matrix. -/
def rowSet (n : ℕ) (rows : List (List ℚ)) : Set (Fin n → ℚ) :=
  {x | ∃ r ∈ rows, rowFun n r = x}

/-- The span of the rows of a matrix. -/
def rowSpan (n : ℕ) (rows : List (List ℚ)) : Submodule ℚ (Fin n → ℚ) :=
  Submodule.span ℚ (rowSet n rows)

/-- `matrix × v` at one row, exactly as the claim states it: the sum of the
entry-wise products. -/
def dotR (r v : List ℚ) : ℚ := (List.zipWith (· * ·) r v).sum

theorem mem_rowSpan_of_mem {n : ℕ} {rows : List (List ℚ)} {r : List ℚ} (h : r ∈ rows) :
    rowFun n r ∈ rowSpan n rows :=
  Submodule.subset_span ⟨r, h, rfl⟩

theorem list_sum_eq_range (l : List ℚ) :
    l.sum = ∑ i ∈ Finset.range l.length, l.getD i 0 := by
  induction l with
  | nil => simp
  | cons a rest ih =>
    rw [List.sum_cons, ih, List.length_cons, Finset.sum_range_succ']
    rw [add_comm]
    exact congrArg₂ (· + ·)
      (Finset.sum_congr rfl (fun i _ => by rw [List.getD_cons_succ])) rfl

theorem dotR_eq_range {n : ℕ} {r v : List ℚ} (hr : r.length = n) (hv : v.length = n) :
    dotR r v = ∑ j ∈ Finset.range n, r.getD j 0 * v.getD j 0 := by
  unfold dotR
  rw [list_sum_eq_range, List.length_zipWith, hr, hv, Nat.min_self]
  refine Finset.sum_congr rfl (fun j hj => ?_)
  have hjn : j < n := Finset.mem_range.mp hj
  rw [List.getD_eq_getElem _ _ (by rw [List.length_zipWith, hr, hv]; omega),
    List.getD_eq_getElem _ _ (by omega), List.getD_eq_getElem _ _ (by omega),
    List.getElem_zipWith]

/-- Everything in the span of a set of vectors that are all orthogonal to `v`
is orthogonal to `v`. -/
theorem dot_zero_of_mem_span {n : ℕ} {v : List ℚ} {S : Set (Fin n → ℚ)}
    (hS : ∀ x ∈ S, ∑ j : Fin n, x j * v.getD j 0 = 0) :
    ∀ x ∈ Submodule.span ℚ S, ∑ j : Fin n, x j * v.getD j 0 = 0 := by
  intro x hx
  induction hx using Submodule.span_induction with
  | mem y hy => exact hS y hy
  | zero => simp
  | add a b ha hb pa pb =>
    have heq : ∑ j : Fin n, (a + b) j * v.getD j 0 =
        (∑ j : Fin n, a j * v.getD j 0) + ∑ j : Fin n, b j * v.getD j 0 := by
      rw [← Finset.sum_add_distrib]
      refine Finset.sum_congr rfl (fun j _ => ?_)
      rw [Pi.add_apply]
      ring
    rw [heq, pa, pb, add_zero]
  | smul q a ha pa =>
    have heq : ∑ j : Fin n, (q • a) j * v.getD j 0 = q * ∑ j : Fin n, a j * v.getD j 0 := by
      rw [Finset.mul_sum]
      refine Finset.sum_congr rfl (fun j _ => ?_)
      rw [Pi.smul_apply, smul_eq_mul]
      ring
    rw [heq, pa, mul_zero]

/-- The row a double `set` reads. -/
theorem getD_set_set {rows : List (List ℚ)} {i j : ℕ} (a b : List ℚ)
    (hi : i < rows.length) (hj : j < rows.length) (hij : i ≠ j) (t : ℕ) :
    ((rows.set i a).set j b).getD t [] =
      if t = i then a else if t = j then b else rows.getD t [] := by
  by_cases ht : t < rows.length
  · by_cases hti : t = i
    · rw [if_pos hti, hti, List.getD_eq_getElem _ _ (by simp; omega),
        List.getElem_set_ne (Ne.symm hij), List.getElem_set_self]
    · by_cases htj : t = j
      · rw [if_neg hti, if_pos htj, htj, List.getD_eq_getElem _ _ (by simp; omega),
          List.getElem_set_self]
      · rw [if_neg hti, if_neg htj, List.getD_eq_getElem _ _ (by simp; omega),
          List.getElem_set_ne (Ne.symm htj), List.getElem_set_ne (Ne.symm hti),
          ← List.getD_eq_getElem _ [] ht]
  · rw [if_neg (by omega), if_neg (by omega), List.getD_eq_default _ _ (by simp; omega),
      List.getD_eq_default _ _ (by omega)]

/-- Swapping two rows (as the windowed swap does, given their processed
prefixes are zero) does not change the row span. -/
theorem rowSpan_swap (n : ℕ) (rows : List (List ℚ)) (i j : ℕ)
    (hi : i < rows.length) (hj : j < rows.length) (hij : i ≠ j) :
    rowSpan n ((rows.set i (rows.getD j [])).set j (rows.getD i [])) = rowSpan n rows := by
  refine le_antisymm (Submodule.span_le.mpr ?_) (Submodule.span_le.mpr ?_)
  · rintro x ⟨r, hr, rfl⟩
    have hr' : r ∈ rows := by
      rcases List.mem_or_eq_of_mem_set hr with h1 | h1
      · rcases List.mem_or_eq_of_mem_set h1 with h2 | h2
        · exact h2
        · exact h2 ▸ getD_row_mem hj
      · exact h1 ▸ getD_row_mem hi
    exact mem_rowSpan_of_mem hr'
  · rintro x ⟨r, hr, rfl⟩
    obtain ⟨t, ht, hteq⟩ := List.mem_iff_getElem.mp hr
    have hrt : r = rows.getD t [] := by
      rw [List.getD_eq_getElem _ _ ht, hteq]
    refine mem_rowSpan_of_mem ?_
    have hmemOf : ∀ s, s < rows.length →
        ((rows.set i (rows.getD j [])).set j (rows.getD i [])).getD s [] ∈
          (rows.set i (rows.getD j [])).set j (rows.getD i []) := by
      intro s hs
      exact getD_row_mem (by simp; omega)
    by_cases hti : t = i
    · have h1 := hmemOf j hj
      rw [getD_set_set _ _ hi hj hij j, if_neg (fun h => hij h.symm), if_pos rfl] at h1
      rw [hrt, hti]
      exact h1
    · by_cases htj : t = j
      · have h1 := hmemOf i hi
        rw [getD_set_set _ _ hi hj hij i, if_pos rfl] at h1
        rw [hrt, htj]
        exact h1
      · have h1 := hmemOf t ht
        rw [getD_set_set _ _ hi hj hij t, if_neg hti, if_neg htj] at h1
        rw [hrt]
        exact h1

/-- A full elimination pass — the pivot row scaled by a nonzero factor, every
other row shifted by a multiple of the pivot row — does not change the row
span. -/
theorem rowSpan_elim (n : ℕ) (rows rows2 : List (List ℚ)) (k : ℕ) (hk : k < rows.length)
    (hlen : rows2.length = rows.length) (f : ℚ) (hf : f ≠ 0)
    (hpiv : rowFun n (rows2.getD k []) = f⁻¹ • rowFun n (rows.getD k []))
    (hoth : ∀ i, i < rows.length → i ≠ k → ∃ coeff : ℚ,
      rowFun n (rows2.getD i []) =
        rowFun n (rows.getD i []) - coeff • rowFun n (rows.getD k [])) :
    rowSpan n rows2 = rowSpan n rows := by
  have hk2 : rowFun n (rows.getD k []) ∈ rowSpan n rows := mem_rowSpan_of_mem (getD_row_mem hk)
  have hk2' : rowFun n (rows2.getD k []) ∈ rowSpan n rows2 :=
    mem_rowSpan_of_mem (getD_row_mem (by omega))
  refine le_antisymm (Submodule.span_le.mpr ?_) (Submodule.span_le.mpr ?_)
  · rintro x ⟨r, hr, rfl⟩
    obtain ⟨t, ht, hteq⟩ := List.mem_iff_getElem.mp hr
    have hrt : r = rows2.getD t [] := by
      rw [List.getD_eq_getElem _ _ ht, hteq]
    by_cases htk : t = k
    · rw [hrt, htk, hpiv]
      exact Submodule.smul_mem _ _ hk2
    · obtain ⟨coeff, hco⟩ := hoth t (by omega) htk
      rw [hrt, hco]
      exact Submodule.sub_mem _ (mem_rowSpan_of_mem (getD_row_mem (by omega)))
        (Submodule.smul_mem _ _ hk2)
  · rintro x ⟨r, hr, rfl⟩
    obtain ⟨t, ht, hteq⟩ := List.mem_iff_getElem.mp hr
    have hrt : r = rows.getD t [] := by
      rw [List.getD_eq_getElem _ _ ht, hteq]
    have hkspan : rowFun n (rows.getD k []) ∈ rowSpan n rows2 := by
      have : rowFun n (rows.getD k []) = f • rowFun n (rows2.getD k []) := by
        rw [hpiv, smul_smul, mul_inv_cancel₀ hf, one_smul]
      rw [this]
      exact Submodule.smul_mem _ _ hk2'
    by_cases htk : t = k
    · rw [hrt, htk]
      exact hkspan
    · obtain ⟨coeff, hco⟩ := hoth t ht htk
      have : rowFun n (rows.getD t []) =
          rowFun n (rows2.getD t []) + coeff • rowFun n (rows.getD k []) := by
        rw [hco]
        abel
      rw [hrt, this]
      exact Submodule.add_mem _ (mem_rowSpan_of_mem (getD_row_mem (by omega)))
        (Submodule.smul_mem _ _ hkspan)

/-! ### Entry characterization of the windowed operations -/

/-- Reading an entry of a row rebuilt as
`unchanged prefix ++ new pivot entry :: new window`. -/
theorem window_row_getD (r p' : List ℚ) (c : ℕ) (hc : c ≤ r.length) (x : ℚ) (j : ℕ) :
    (r.take c ++ x :: p').getD j 0 =
      if j < c then r.getD j 0 else if j = c then x else p'.getD (j - c - 1) 0 := by
  have htl : (r.take c).length = c := by
    rw [List.length_take]
    omega
  by_cases h1 : j < c
  · rw [if_pos h1, List.getD_append _ _ _ _ (by omega)]
    rw [List.getD_eq_getElem _ _ (by omega), List.getD_eq_getElem _ _ (by omega),
      List.getElem_take]
  · rw [if_neg h1, List.getD_append_right _ _ _ _ (by omega), htl]
    by_cases h2 : j = c
    · rw [if_pos h2, h2, Nat.sub_self, List.getD_cons_zero]
    · rw [if_neg h2, show j - c = (j - c - 1) + 1 by omega, List.getD_cons_succ]
      simp only [Nat.add_sub_cancel]

/-- Membership in an indexed map. -/
theorem mem_mapWithIdx {f : ℕ → List ℚ → List ℚ} {i : ℕ} {l : List (List ℚ)} {x : List ℚ}
    (h : x ∈ mapWithIdx f i l) : ∃ t, t < l.length ∧ x = f (i + t) (l.getD t []) := by
  obtain ⟨t, ht, hteq⟩ := List.mem_iff_getElem.mp h
  rw [mapWithIdx_length] at ht
  refine ⟨t, ht, ?_⟩
  rw [← hteq, ← List.getD_eq_getElem _ [] (by rw [mapWithIdx_length]; exact ht),
    mapWithIdx_getD f i l t ht]

/-- Reading a list element at an index known equal to `b`. -/
theorem getElem_eq_getD {l : List ℚ} {a b : ℕ} (h : a < l.length) (hab : a = b) :
    l[a] = l.getD b 0 := by
  subst hab
  rw [List.getD_eq_getElem _ _ h]

theorem elimStepAt_length (rows : List (List ℚ)) (k c : ℕ) :
    (elimStepAt rows k c).length = rows.length :=
  mapWithIdx_length _ 0 rows

/-- Every row of an elimination pass keeps length `n`. -/
theorem elimStepAt_row_length {n : ℕ} {rows : List (List ℚ)} {k c : ℕ}
    (hlen : ∀ r ∈ rows, r.length = n) (hk : k < rows.length) (hcn : c < n) :
    ∀ r ∈ elimStepAt rows k c, r.length = n := by
  intro r hr
  obtain ⟨t, ht, hteq⟩ := mem_mapWithIdx hr
  have hrt : (rows.getD t []).length = n := hlen _ (getD_row_mem ht)
  have hpk : (rows.getD k []).length = n := hlen _ (getD_row_mem hk)
  rw [hteq]
  simp only [Nat.zero_add]
  by_cases htk : t = k
  · rw [if_pos htk]
    rw [List.length_append, List.length_take, List.length_cons, List.length_map,
      List.length_drop, hrt]
    omega
  · rw [if_neg htk]
    rw [List.length_append, List.length_take, List.length_cons, List.length_zipWith,
      List.length_drop, List.length_drop, hrt, hpk]
    omega

/-- The entry-level description of one elimination pass. -/
theorem elimStepAt_ent {n : ℕ} {rows : List (List ℚ)} {k c : ℕ}
    (hlen : ∀ r ∈ rows, r.length = n) (hk : k < rows.length) (hcn : c < n) :
    ∀ i j, j < n →
      ent (elimStepAt rows k c) i j =
        if i = k then
          if j < c then ent rows i j else if j = c then 1 else ent rows i j / ent rows k c
        else
          if j < c then ent rows i j
          else if j = c then 0
          else ent rows i j - ent rows i c / ent rows k c * ent rows k j := by
  intro i j hj
  have hpk : (rows.getD k []).length = n := hlen _ (getD_row_mem hk)
  by_cases hi : i < rows.length
  · have hri : (rows.getD i []).length = n := hlen _ (getD_row_mem hi)
    have hent : ent (elimStepAt rows k c) i j =
        (if i = k then
          (rows.getD i []).take c ++
            1 :: ((rows.getD i []).drop (c + 1)).map (· / (rows.getD k []).getD c 0)
        else
          (rows.getD i []).take c ++ 0 ::
            (((rows.getD i []).drop (c + 1)).zipWith
              (fun a b => a - (rows.getD i []).getD c 0 / (rows.getD k []).getD c 0 * b)
              ((rows.getD k []).drop (c + 1)))).getD j 0 := by
      unfold ent elimStepAt
      rw [mapWithIdx_getD _ 0 rows i hi]
      simp only [Nat.zero_add]
    rw [hent]
    by_cases hik : i = k
    · subst hik
      rw [if_pos rfl, if_pos rfl]
      rw [window_row_getD _ _ c (by omega) 1 j]
      by_cases h1 : j < c
      · rw [if_pos h1, if_pos h1]
        rfl
      · rw [if_neg h1, if_neg h1]
        by_cases h2 : j = c
        · rw [if_pos h2, if_pos h2]
        · rw [if_neg h2, if_neg h2]
          have hdj : j - c - 1 < ((rows.getD i []).drop (c + 1)).length := by
            rw [List.length_drop, hri]
            omega
          rw [List.getD_eq_getElem _ _ (by rw [List.length_map]; exact hdj),
            List.getElem_map, List.getElem_drop]
          unfold ent
          rw [getElem_eq_getD _ (show c + 1 + (j - c - 1) = j by omega)]
    · rw [if_neg hik, if_neg hik]
      rw [window_row_getD _ _ c (by omega) 0 j]
      by_cases h1 : j < c
      · rw [if_pos h1, if_pos h1]
        rfl
      · rw [if_neg h1, if_neg h1]
        by_cases h2 : j = c
        · rw [if_pos h2, if_pos h2]
        · rw [if_neg h2, if_neg h2]
          have hdj : j - c - 1 < ((rows.getD i []).drop (c + 1)).length := by
            rw [List.length_drop, hri]
            omega
          have hdk : j - c - 1 < ((rows.getD k []).drop (c + 1)).length := by
            rw [List.length_drop, hpk]
            omega
          rw [List.getD_eq_getElem _ _ (by rw [List.length_zipWith]; omega),
            List.getElem_zipWith, List.getElem_drop, List.getElem_drop]
          unfold ent
          rw [getElem_eq_getD _ (show c + 1 + (j - c - 1) = j by omega),
            getElem_eq_getD _ (show c + 1 + (j - c - 1) = j by omega)]
  · have h0 : ent (elimStepAt rows k c) i j = 0 :=
      ent_row_oob (by rw [elimStepAt_length]; omega) j
    have hik : i ≠ k := by omega
    rw [h0, if_neg hik]
    have hz : ∀ t, ent rows i t = 0 := fun t => ent_row_oob (by omega) t
    by_cases h1 : j < c
    · rw [if_pos h1, hz j]
    · rw [if_neg h1]
      by_cases h2 : j = c
      · rw [if_pos h2]
      · rw [if_neg h2, hz j, hz c]
        simp

/-- When two rows agree on an all-zero processed prefix, swapping their
windows is swapping the whole rows. -/
theorem take_append_drop_of_zero_pre {n c : ℕ} {a b : List ℚ} (ha : a.length = n)
    (hb : b.length = n) (hc : c ≤ n)
    (hza : ∀ t, t < c → a.getD t 0 = 0) (hzb : ∀ t, t < c → b.getD t 0 = 0) :
    a.take c ++ b.drop c = b := by
  have hta : (a.take c).length = c := by
    rw [List.length_take]
    omega
  refine List.ext_getElem ?_ ?_
  · rw [List.length_append, hta, List.length_drop]
    omega
  · intro t h1 h2
    by_cases htc : t < c
    · rw [List.getElem_append_left (by omega), List.getElem_take,
        getElem_eq_getD _ rfl, getElem_eq_getD _ rfl, hza t htc, hzb t htc]
    · rw [List.getElem_append_right (by omega), List.getElem_drop,
        getElem_eq_getD _ rfl, getElem_eq_getD _ rfl]
      congr 1
      omega

theorem swapWindow_eq_full {n : ℕ} {rows : List (List ℚ)} {i j c : ℕ}
    (hi : i < rows.length) (hj : j < rows.length)
    (hlen : ∀ r ∈ rows, r.length = n) (hc : c ≤ n)
    (hzi : ∀ t, t < c → ent rows i t = 0) (hzj : ∀ t, t < c → ent rows j t = 0) :
    swapWindow rows i j c = (rows.set i (rows.getD j [])).set j (rows.getD i []) := by
  unfold swapWindow
  rw [take_append_drop_of_zero_pre (hlen _ (getD_row_mem hi)) (hlen _ (getD_row_mem hj)) hc
      hzi hzj,
    take_append_drop_of_zero_pre (hlen _ (getD_row_mem hj)) (hlen _ (getD_row_mem hi)) hc
      hzj hzi]

/-- Entries of the full swap. -/
theorem ent_full_swap {rows : List (List ℚ)} {i j : ℕ} (hi : i < rows.length)
    (hj : j < rows.length) (hij : i ≠ j) (t x : ℕ) :
    ent ((rows.set i (rows.getD j [])).set j (rows.getD i [])) t x =
      if t = i then ent rows j x else if t = j then ent rows i x else ent rows t x := by
  unfold ent
  rw [getD_set_set _ _ hi hj hij t]
  by_cases h1 : t = i
  · rw [if_pos h1, if_pos h1]
  · rw [if_neg h1, if_neg h1]
    by_cases h2 : t = j
    · rw [if_pos h2, if_pos h2]
    · rw [if_neg h2, if_neg h2]

/-! ### The basis vector emitted at a free column is orthogonal to every row -/

/-- `getD` of a mapped list at an in-range index. -/
theorem getD_map_fn (f : ℕ → ℚ) (l : List ℕ) (a : ℕ) (h : a < l.length) :
    (l.map f).getD a 0 = f (l.getD a 0) := by
  rw [List.getD_eq_getElem _ _ (by rw [List.length_map]; omega), List.getElem_map,
    List.getD_eq_getElem _ _ h]

/-- The vector read off at a free column `c`, paired with the current matrix:
its dot product with every current row vanishes. -/
theorem emission_dot_zero {n : ℕ} {rows : List (List ℚ)} {pivots c : ℕ} {u : List Bool}
    (hlen : ∀ r ∈ rows, r.length = n)
    (hcLen : u.length = c) (hcn : c < n)
    (hkF : u.count false = pivots) (hkR : pivots ≤ rows.length)
    (hpivot : ∀ a, a < pivots → ent rows a ((falseIdxs u).getD a 0) = 1 ∧
      ∀ i, i ≠ a → ent rows i ((falseIdxs u).getD a 0) = 0)
    (hcol : ∀ i, pivots ≤ i → ent rows i c = 0) :
    ∀ b, ∑ j ∈ Finset.range n,
      ent rows b j * (negParams u (rows.map (fun r : List ℚ => r.getD c 0)) ++
        1 :: List.replicate (n - c - 1) 0).getD j 0 = 0 := by
  intro b
  set params := rows.map (fun r : List ℚ => r.getD c 0) with hparams
  set v := negParams u params ++ 1 :: List.replicate (n - c - 1) 0 with hv
  set pcols := falseIdxs u with hpcols
  have hplen : pcols.length = pivots := by rw [hpcols, falseIdxs_length, hkF]
  have hnp : (negParams u params).length = c := by rw [negParams_length, hcLen]
  have hpc_lt : ∀ a, a < pivots → pcols.getD a 0 < c := by
    intro a ha
    have hlt : (falseIdxs u).getD a 0 < u.length := by
      refine falseIdxs_lt u _ ?_
      rw [List.getD_eq_getElem _ _ (by rw [falseIdxs_length, hkF]; omega)]
      exact List.getElem_mem (by rw [falseIdxs_length, hkF]; omega)
    rw [hpcols]
    omega
  have hvc : v.getD c 0 = 1 := by
    rw [hv, List.getD_append_right _ _ _ _ (by omega), hnp, Nat.sub_self, List.getD_cons_zero]
  have hvgt : ∀ j, c < j → v.getD j 0 = 0 := by
    intro j hcj
    rw [hv, List.getD_append_right _ _ _ _ (by omega), hnp,
      show j - c = (j - c - 1) + 1 by omega, List.getD_cons_succ, getD_replicate]
    exact ite_self 0
  have hvpiv : ∀ a, a < pivots → v.getD (pcols.getD a 0) 0 = -(ent rows a c) := by
    intro a ha
    have hic := hpc_lt a ha
    rw [hv, List.getD_append _ _ _ _ (by omega)]
    rw [hpcols, negParams_getD_pivot u params a (by rw [← hpcols]; omega)]
    have : params.getD a 0 = ent rows a c := by
      rw [hparams, List.getD_eq_getElem _ _ (by rw [List.length_map]; omega),
        List.getElem_map]
      unfold ent
      rw [List.getD_eq_getElem _ [] (by omega)]
    rw [this]
  have hvfree : ∀ j, j < c → j ∉ pcols → v.getD j 0 = 0 := by
    intro j hj hmem
    rw [hv, List.getD_append _ _ _ _ (by omega)]
    exact negParams_getD_free u params j (by omega) (hpcols ▸ hmem)
  -- restrict the sum to the pivot columns and column `c`
  have hsub : pcols.toFinset ∪ {c} ⊆ Finset.range n := by
    intro x hx
    rcases Finset.mem_union.mp hx with hx | hx
    · have := falseIdxs_lt u x (by rw [← hpcols]; exact List.mem_toFinset.mp hx)
      exact Finset.mem_range.mpr (by omega)
    · rw [Finset.mem_singleton.mp hx]
      exact Finset.mem_range.mpr hcn
  have hvanish : ∀ j ∈ Finset.range n, j ∉ pcols.toFinset ∪ {c} →
      ent rows b j * v.getD j 0 = 0 := by
    intro j hjn hjS
    have hjc : j ≠ c := by
      intro h
      exact hjS (Finset.mem_union_right _ (Finset.mem_singleton.mpr h))
    have hjp : j ∉ pcols := by
      intro h
      exact hjS (Finset.mem_union_left _ (List.mem_toFinset.mpr h))
    by_cases hjlt : j < c
    · rw [hvfree j hjlt hjp, mul_zero]
    · rw [hvgt j (by omega), mul_zero]
  rw [← Finset.sum_subset hsub hvanish]
  have hdisj : Disjoint pcols.toFinset ({c} : Finset ℕ) := by
    rw [Finset.disjoint_singleton_right]
    intro h
    have := falseIdxs_lt u c (by rw [← hpcols]; exact List.mem_toFinset.mp h)
    omega
  rw [Finset.sum_union hdisj, Finset.sum_singleton, hvc, mul_one]
  rw [List.sum_toFinset _ (hpcols ▸ falseIdxs_nodup u)]
  rw [list_sum_eq_range, List.length_map, hplen]
  have hterm : ∀ a ∈ Finset.range pivots,
      ((pcols.map (fun j => ent rows b j * v.getD j 0)).getD a 0) =
        ent rows b (pcols.getD a 0) * -(ent rows a c) := by
    intro a ha
    have han : a < pivots := Finset.mem_range.mp ha
    rw [getD_map_fn _ _ _ (by omega)]
    show ent rows b (pcols.getD a 0) * v.getD (pcols.getD a 0) 0 = _
    rw [hvpiv a han]
  rw [Finset.sum_congr rfl hterm]
  by_cases hb : b < pivots
  · rw [Finset.sum_eq_single_of_mem b (Finset.mem_range.mpr hb) ?side]
    · rw [(hpivot b hb).1, one_mul]
      ring
    case side =>
      intro a ha hab
      rw [(hpivot a (Finset.mem_range.mp ha)).2 b (Ne.symm hab), zero_mul]
  · rw [hcol b (by omega), Finset.sum_eq_zero ?allz, add_zero]
    case allz =>
      intro a ha
      have han : a < pivots := Finset.mem_range.mp ha
      rw [(hpivot a han).2 b (by omega), zero_mul]

/-! ### Rank of the input matrix -/

theorem count_true_add_count_false : ∀ l : List Bool, l.count true + l.count false = l.length
  | [] => rfl
  | b :: l => by
      have := count_true_add_count_false l
      cases b <;> simp [List.count_cons] <;> omega

/-- The rank of the embedded matrix is the dimension of its row space. -/
theorem matrixOf_rank (m : List (List ℚ)) (n : ℕ) :
    (matrixOf m n).rank = Module.finrank ℚ (rowSpan n m) := by
  rw [← Matrix.rank_transpose (matrixOf m n), Matrix.rank_eq_finrank_span_cols,
    Matrix.transpose_transpose]
  have hset : Set.range (matrixOf m n) = rowSet n m := by
    ext x
    constructor
    · rintro ⟨i, rfl⟩
      refine ⟨m.getD i [], getD_row_mem i.isLt, ?_⟩
      funext j
      rfl
    · rintro ⟨r, hr, rfl⟩
      obtain ⟨t, ht, hteq⟩ := List.mem_iff_getElem.mp hr
      refine ⟨⟨t, ht⟩, ?_⟩
      funext j
      show ent m t j = rowFun n r j
      unfold ent rowFun
      rw [List.getD_eq_getElem _ _ ht, hteq]
  rw [hset]
  rfl

/-- A matrix in fully reduced form — `pivots` pivot rows carrying standard
basis columns at the pivot positions, all-zero rows below — has row space of
dimension exactly `pivots`. -/
theorem finrank_rowSpan_rref {n : ℕ} {rows : List (List ℚ)} {pivots : ℕ}
    (hkR : pivots ≤ rows.length)
    {pcols : List ℕ}
    (hpn : ∀ a, a < pivots → pcols.getD a 0 < n)
    (hzero : ∀ i, pivots ≤ i → ∀ j, j < n → ent rows i j = 0)
    (hpivot : ∀ a, a < pivots → ent rows a (pcols.getD a 0) = 1 ∧
      ∀ i, i ≠ a → ent rows i (pcols.getD a 0) = 0) :
    Module.finrank ℚ (rowSpan n rows) = pivots := by
  set P : Fin pivots → (Fin n → ℚ) := fun a => rowFun n (rows.getD a []) with hP
  have hPa : ∀ (a : Fin pivots) (j : Fin n), P a j = ent rows a j := by
    intro a j
    rfl
  have hPli : LinearIndependent ℚ P := by
    rw [Fintype.linearIndependent_iff]
    intro g hg a
    have hcol : pcols.getD (a : ℕ) 0 < n := hpn a a.isLt
    have happ := congrFun hg ⟨pcols.getD (a : ℕ) 0, hcol⟩
    rw [Finset.sum_apply, Pi.zero_apply] at happ
    have hterm : ∀ b : Fin pivots,
        (g b • P b) ⟨pcols.getD (a : ℕ) 0, hcol⟩ =
          g b * ent rows b (pcols.getD (a : ℕ) 0) := by
      intro b
      rw [Pi.smul_apply, smul_eq_mul, hPa]
    rw [Finset.sum_congr rfl (fun b _ => hterm b)] at happ
    rw [Finset.sum_eq_single a
      (fun b _ hba => by
        rw [(hpivot a a.isLt).2 b (fun h => hba (Fin.ext h)), mul_zero])
      (fun ha => absurd (Finset.mem_univ a) ha)] at happ
    rw [(hpivot a a.isLt).1, mul_one] at happ
    exact happ
  have hspan : Submodule.span ℚ (Set.range P) = rowSpan n rows := by
    refine le_antisymm (Submodule.span_le.mpr ?_) (Submodule.span_le.mpr ?_)
    · rintro x ⟨a, rfl⟩
      exact mem_rowSpan_of_mem (getD_row_mem (by omega))
    · rintro x ⟨r, hr, rfl⟩
      obtain ⟨t, ht, hteq⟩ := List.mem_iff_getElem.mp hr
      have hrt : r = rows.getD t [] := by
        rw [List.getD_eq_getElem _ _ ht, hteq]
      by_cases htp : t < pivots
      · exact Submodule.subset_span ⟨⟨t, htp⟩, by rw [hP, hrt]⟩
      · have hzr : rowFun n r = 0 := by
          funext j
          show r.getD (j : ℕ) 0 = 0
          rw [hrt]
          exact hzero t (by omega) j j.isLt
        rw [hzr]
        exact Submodule.zero_mem _
  rw [← hspan, finrank_span_eq_card hPli, Fintype.card_fin]

/-! ### The sweep invariant -/

/-- The sweep invariant of `nullspaceGo`: starting from a state whose rows
span the original row space, whose first `pivots` rows carry standard-basis
columns at the recorded pivot positions, and whose processed columns vanish
on and below row `pivots`, the sweep emits one basis vector per free column,
each orthogonal to every original row, and the number of emitted vectors plus
the dimension of the original row space is the column count. -/
theorem nullspaceGo_spec (n : ℕ) (orig : List (List ℚ)) :
    ∀ (width c : ℕ) (rows : List (List ℚ)) (pivots : ℕ) (unknowns : List Bool)
      (nullsp : List (List ℚ)),
      c + width = n →
      rows.length = orig.length →
      (∀ r ∈ rows, r.length = n) →
      unknowns.length = c →
      unknowns.count false = pivots →
      pivots ≤ rows.length →
      (∀ i, pivots ≤ i → ∀ j, j < c → ent rows i j = 0) →
      (∀ a, a < pivots → ent rows a ((falseIdxs unknowns).getD a 0) = 1 ∧
        ∀ i, i ≠ a → ent rows i ((falseIdxs unknowns).getD a 0) = 0) →
      rowSpan n rows = rowSpan n orig →
      nullsp.length = unknowns.count true →
      (∀ v ∈ nullsp, ∀ b, ∑ j ∈ Finset.range n, ent orig b j * v.getD j 0 = 0) →
      (∀ v ∈ (nullspaceGo n width c rows pivots unknowns nullsp).2, ∀ b,
          ∑ j ∈ Finset.range n, ent orig b j * v.getD j 0 = 0) ∧
      (nullspaceGo n width c rows pivots unknowns nullsp).2.length =
        (nullspaceGo n width c rows pivots unknowns nullsp).1.count true ∧
      (nullspaceGo n width c rows pivots unknowns nullsp).2.length +
        Module.finrank ℚ (rowSpan n orig) = n := by
  intro width
  induction width with
  | zero =>
    intro c rows pivots unknowns nullsp hcw hlen hrowLen huLen hkF hkR hzero hpivot hspan
      hnLen hnull
    have hceq : c = n := by omega
    subst hceq
    simp only [nullspaceGo]
    refine ⟨hnull, hnLen, ?_⟩
    have hpn : ∀ a, a < pivots → (falseIdxs unknowns).getD a 0 < c := by
      intro a ha
      have hl : a < (falseIdxs unknowns).length := by
        rw [falseIdxs_length, hkF]
        omega
      have hmem : (falseIdxs unknowns).getD a 0 ∈ falseIdxs unknowns := by
        rw [List.getD_eq_getElem _ _ hl]
        exact List.getElem_mem hl
      have := falseIdxs_lt unknowns _ hmem
      omega
    have hfr : Module.finrank ℚ (rowSpan c rows) = pivots :=
      finrank_rowSpan_rref hkR hpn hzero hpivot
    rw [← hspan, hfr, hnLen]
    have := count_true_add_count_false unknowns
    omega
  | succ w ih =>
    intro c rows pivots unknowns nullsp hcw hlen hrowLen huLen hkF hkR hzero hpivot hspan
      hnLen hnull
    have hcn : c < n := by omega
    rcases hfind : findFrom rows pivots c with _ | f0
    · -- free column: a basis vector is emitted
      simp only [nullspaceGo, hfind]
      set v : List ℚ := negParams unknowns (rows.map fun r => r.getD c 0) ++
        1 :: List.replicate (n - c - 1) 0 with hv
      refine ih (c + 1) rows pivots (unknowns ++ [true]) (nullsp ++ [v]) (by omega) hlen
        hrowLen (by simp [huLen]) (by simp [List.count_append, hkF]) hkR ?_ ?_ hspan
        (by simp [List.count_append, hnLen]) ?_
      · intro i hi j hj
        by_cases hjc : j < c
        · exact hzero i hi j hjc
        · have hjc' : j = c := by omega
          subst hjc'
          exact findFrom_none hfind i hi
      · intro a ha
        rw [falseIdxs_append_true]
        exact hpivot a ha
      · intro x hx b
        rcases List.mem_append.mp hx with hmem | hmem
        · exact hnull x hmem b
        · rw [List.mem_singleton] at hmem
          subst hmem
          have hemit := emission_dot_zero hrowLen huLen hcn hkF hkR hpivot
            (fun i hi => findFrom_none hfind i hi)
          have hS : ∀ x ∈ rowSet n rows, ∑ j : Fin n, x j * v.getD (j : ℕ) 0 = 0 := by
            rintro x ⟨r, hr, rfl⟩
            obtain ⟨t, ht, hteq⟩ := List.mem_iff_getElem.mp hr
            have hrt : r = rows.getD t [] := by
              rw [List.getD_eq_getElem _ _ ht, hteq]
            calc ∑ j : Fin n, rowFun n r j * v.getD (j : ℕ) 0
                = ∑ j ∈ Finset.range n, ent rows t j * v.getD j 0 := by
                  rw [Finset.sum_range]
                  refine Finset.sum_congr rfl (fun j _ => ?_)
                  unfold rowFun ent
                  rw [hrt]
              _ = 0 := hemit t
          have hdot := dot_zero_of_mem_span hS
          by_cases hb : b < orig.length
          · have hmemb : rowFun n (orig.getD b []) ∈ Submodule.span ℚ (rowSet n rows) := by
              have hmo : rowFun n (orig.getD b []) ∈ rowSpan n orig :=
                mem_rowSpan_of_mem (getD_row_mem hb)
              rw [← hspan] at hmo
              exact hmo
            have hz := hdot _ hmemb
            calc ∑ j ∈ Finset.range n, ent orig b j * v.getD j 0
                = ∑ j : Fin n, rowFun n (orig.getD b []) j * v.getD (j : ℕ) 0 := by
                  rw [Finset.sum_range]
                  rfl
              _ = 0 := hz
          · refine Finset.sum_eq_zero fun j hj => ?_
            rw [ent_row_oob (by omega) j, zero_mul]
    · -- pivot column: swap (if needed) and eliminate
      simp only [nullspaceGo, hfind]
      obtain ⟨hfp, hflen, hfnz⟩ := findFrom_some hfind
      have hkR' : pivots < rows.length := by omega
      set rows1 := if f0 ≠ pivots then swapWindow rows pivots f0 c else rows with hrows1
      set rows2 := elimStepAt rows1 pivots c with hrows2
      have hfull : rows1.length = rows.length ∧ (∀ r ∈ rows1, r.length = n) ∧
          (∀ t x, ent rows1 t x =
            if t = pivots then ent rows f0 x else if t = f0 then ent rows pivots x
            else ent rows t x) ∧
          rowSpan n rows1 = rowSpan n rows := by
        by_cases hsw : f0 = pivots
        · subst hsw
          have heq1 : rows1 = rows := by
            rw [hrows1, if_neg (fun h => h rfl)]
          rw [heq1]
          refine ⟨rfl, hrowLen, ?_, rfl⟩
          intro t x
          by_cases h1 : t = f0
          · rw [if_pos h1, h1]
          · rw [if_neg h1, if_neg h1]
        · have hne : pivots ≠ f0 := fun h => hsw h.symm
          have heq1 : rows1 =
              (rows.set pivots (rows.getD f0 [])).set f0 (rows.getD pivots []) := by
            rw [hrows1, if_pos hsw,
              swapWindow_eq_full hkR' hflen hrowLen (le_of_lt hcn)
                (fun t ht => hzero pivots le_rfl t ht)
                (fun t ht => hzero f0 hfp t ht)]
          refine ⟨by rw [heq1]; simp, ?_, ?_, ?_⟩
          · intro r hr
            rw [heq1] at hr
            rcases List.mem_or_eq_of_mem_set hr with h1 | h1
            · rcases List.mem_or_eq_of_mem_set h1 with h2 | h2
              · exact hrowLen r h2
              · exact h2 ▸ hrowLen _ (getD_row_mem hflen)
            · exact h1 ▸ hrowLen _ (getD_row_mem hkR')
          · intro t x
            rw [heq1]
            exact ent_full_swap hkR' hflen hne t x
          · rw [heq1]
            exact rowSpan_swap n rows pivots f0 hkR' hflen hne
      obtain ⟨h1len, h1rowLen, h1ent, h1span⟩ := hfull
      have h1zero : ∀ i, pivots ≤ i → ∀ j, j < c → ent rows1 i j = 0 := by
        intro i hi j hj
        rw [h1ent]
        by_cases hip : i = pivots
        · rw [if_pos hip]
          exact hzero f0 hfp j hj
        · rw [if_neg hip]
          by_cases hif : i = f0
          · rw [if_pos hif]
            exact hzero pivots le_rfl j hj
          · rw [if_neg hif]
            exact hzero i hi j hj
      have h1pivcol : ∀ a, a < pivots →
          ent rows1 a ((falseIdxs unknowns).getD a 0) = 1 ∧
          ∀ i, i ≠ a → ent rows1 i ((falseIdxs unknowns).getD a 0) = 0 := by
        intro a ha
        constructor
        · rw [h1ent, if_neg (by omega), if_neg (by omega)]
          exact (hpivot a ha).1
        · intro i hia
          rw [h1ent]
          by_cases hip : i = pivots
          · rw [if_pos hip]
            exact (hpivot a ha).2 f0 (by omega)
          · rw [if_neg hip]
            by_cases hif : i = f0
            · rw [if_pos hif]
              exact (hpivot a ha).2 pivots (by omega)
            · rw [if_neg hif]
              exact (hpivot a ha).2 i hia
      have h1nz : ent rows1 pivots c ≠ 0 := by
        rw [h1ent, if_pos rfl]
        exact hfnz
      have h2len : rows2.length = rows.length := by
        rw [hrows2, elimStepAt_length, h1len]
      have h2rowLen : ∀ r ∈ rows2, r.length = n := by
        rw [hrows2]
        exact elimStepAt_row_length h1rowLen (by omega) hcn
      have h2ent : ∀ i j, j < n →
          ent rows2 i j =
            if i = pivots then
              if j < c then ent rows1 i j else if j = c then 1
              else ent rows1 i j / ent rows1 pivots c
            else
              if j < c then ent rows1 i j
              else if j = c then 0
              else ent rows1 i j - ent rows1 i c / ent rows1 pivots c * ent rows1 pivots j := by
        rw [hrows2]
        exact elimStepAt_ent h1rowLen (by omega) hcn
      have hflen' : (falseIdxs unknowns).length = pivots := by
        rw [falseIdxs_length, hkF]
      have hgetD' : ∀ a, a < pivots →
          (falseIdxs (unknowns ++ [false])).getD a 0 = (falseIdxs unknowns).getD a 0 := by
        intro a ha
        rw [falseIdxs_append_false, List.getD_append _ _ _ _ (by omega)]
      have hgetDp : (falseIdxs (unknowns ++ [false])).getD pivots 0 = c := by
        rw [falseIdxs_append_false, List.getD_append_right _ _ _ _ (by omega), hflen',
          Nat.sub_self, List.getD_cons_zero, huLen]
      have hz2 : ∀ i, pivots + 1 ≤ i → ∀ j, j < c + 1 → ent rows2 i j = 0 := by
        intro i hi j hj
        rw [h2ent i j (by omega), if_neg (by omega)]
        by_cases hjc : j < c
        · rw [if_pos hjc]
          exact h1zero i (by omega) j hjc
        · rw [if_neg hjc, if_pos (by omega : j = c)]
      have hp2 : ∀ a, a < pivots + 1 →
          ent rows2 a ((falseIdxs (unknowns ++ [false])).getD a 0) = 1 ∧
          ∀ i, i ≠ a → ent rows2 i ((falseIdxs (unknowns ++ [false])).getD a 0) = 0 := by
        intro a ha
        by_cases hap : a < pivots
        · rw [hgetD' a hap]
          have hacol : (falseIdxs unknowns).getD a 0 < c := by
            have hl : a < (falseIdxs unknowns).length := by omega
            have hmem : (falseIdxs unknowns).getD a 0 ∈ falseIdxs unknowns := by
              rw [List.getD_eq_getElem _ _ hl]
              exact List.getElem_mem hl
            have := falseIdxs_lt unknowns _ hmem
            omega
          constructor
          · rw [h2ent a ((falseIdxs unknowns).getD a 0) (by omega), if_neg (by omega),
              if_pos hacol]
            exact (h1pivcol a hap).1
          · intro i hia
            rw [h2ent i ((falseIdxs unknowns).getD a 0) (by omega)]
            by_cases hip : i = pivots
            · rw [if_pos hip, if_pos hacol]
              exact (h1pivcol a hap).2 i hia
            · rw [if_neg hip, if_pos hacol]
              exact (h1pivcol a hap).2 i hia
        · have hap' : a = pivots := by omega
          subst hap'
          rw [hgetDp]
          constructor
          · rw [h2ent a c (by omega), if_pos rfl, if_neg (by omega), if_pos rfl]
          · intro i hia
            rw [h2ent i c (by omega), if_neg hia, if_neg (by omega), if_pos rfl]
      have h2span : rowSpan n rows2 = rowSpan n rows1 := by
        rw [hrows2]
        refine rowSpan_elim n rows1 (elimStepAt rows1 pivots c) pivots (by omega)
          (elimStepAt_length rows1 pivots c) (ent rows1 pivots c) h1nz ?_ ?_
        · funext j
          have hrj : rowFun n (rows1.getD pivots []) j = ent rows1 pivots (j : ℕ) := rfl
          have hent := elimStepAt_ent h1rowLen (show pivots < rows1.length by omega) hcn
            pivots (j : ℕ) j.isLt
          show ent (elimStepAt rows1 pivots c) pivots (j : ℕ) = _
          rw [hent, if_pos rfl, Pi.smul_apply, smul_eq_mul, hrj]
          by_cases h1 : (j : ℕ) < c
          · rw [if_pos h1, h1zero pivots le_rfl _ h1, mul_zero]
          · by_cases h2 : (j : ℕ) = c
            · rw [if_neg h1, if_pos h2, h2, inv_mul_cancel₀ h1nz]
            · rw [if_neg h1, if_neg h2, div_eq_inv_mul]
        · intro i hilen hip
          refine ⟨ent rows1 i c / ent rows1 pivots c, ?_⟩
          funext j
          have hri : rowFun n (rows1.getD i []) j = ent rows1 i (j : ℕ) := rfl
          have hrp : rowFun n (rows1.getD pivots []) j = ent rows1 pivots (j : ℕ) := rfl
          have hent := elimStepAt_ent h1rowLen (show pivots < rows1.length by omega) hcn
            i (j : ℕ) j.isLt
          show ent (elimStepAt rows1 pivots c) i (j : ℕ) = _
          rw [hent, if_neg hip, Pi.sub_apply, Pi.smul_apply, smul_eq_mul, hri, hrp]
          by_cases h1 : (j : ℕ) < c
          · rw [if_pos h1, h1zero pivots le_rfl _ h1, mul_zero, sub_zero]
          · by_cases h2 : (j : ℕ) = c
            · rw [if_neg h1, if_pos h2, h2, div_mul_cancel₀ _ h1nz, sub_self]
            · rw [if_neg h1, if_neg h2]
      exact ih (c + 1) rows2 (pivots + 1) (unknowns ++ [false]) nullsp (by omega)
        (by rw [h2len, hlen]) h2rowLen (by simp [huLen]) (by simp [List.count_append, hkF])
        (by omega) hz2 hp2 (h2span.trans (h1span.trans hspan))
        (by simpa [List.count_append] using hnLen) hnull

/-- C1: for every rational matrix (a list of rows, each of length `columns`)
passed to the nullspace solver, every basis vector `v` in the returned
nullspace list satisfies `matrix × v = 0` with every entry exactly zero, the
number of returned basis vectors equals the number of set (`true`) bits of the
returned free-column bit-vector, and that number equals `columns` minus the
rank of the matrix (stated additively: vectors + rank = columns). -/
theorem c1_nullspace_correct (m : List (List ℚ)) (n : ℕ)
    (hrows : ∀ r ∈ m, r.length = n) :
    (∀ v ∈ (nullspace m n).2, ∀ i,
        ∑ j ∈ Finset.range n, ent m i j * v.getD j 0 = 0) ∧
    (nullspace m n).2.length = (nullspace m n).1.count true ∧
    (nullspace m n).2.length + (matrixOf m n).rank = n := by
  have h := nullspaceGo_spec n m n 0 m 0 [] [] (by omega) rfl hrows rfl rfl (Nat.zero_le _)
    (fun i _ j hj => absurd hj (by omega)) (fun a ha => absurd ha (by omega)) rfl rfl
    (fun v hv => absurd hv (by simp))
  unfold nullspace
  refine ⟨h.1, h.2.1, ?_⟩
  rw [matrixOf_rank]
  exact h.2.2

/-- Witness for C1 at the concrete balance matrix `[[2, -3]]` with two
columns. -/
theorem c1_witness :
    (∀ r ∈ [[(2 : ℚ), -3]], r.length = 2) ∧
    ((∀ v ∈ (nullspace [[(2 : ℚ), -3]] 2).2, ∀ i,
        ∑ j ∈ Finset.range 2, ent [[(2 : ℚ), -3]] i j * v.getD j 0 = 0) ∧
      (nullspace [[(2 : ℚ), -3]] 2).2.length = (nullspace [[(2 : ℚ), -3]] 2).1.count true ∧
      (nullspace [[(2 : ℚ), -3]] 2).2.length + (matrixOf [[(2 : ℚ), -3]] 2).rank = 2) :=
  ⟨by decide, c1_nullspace_correct _ _ (by decide)⟩

end GregCalc
